import Mathlib

/-!
Verification of the Tap repository (a Feishu bitable sync tool).

The development shallowly embeds the reconciliation engine of
`src/tap/commands.py` (class `FlushCommand`) and the HTTP client layer of
`src/tap/client.py` (class `FeishuClient`).  Python dictionaries are embedded
as association lists with first-occurrence lookup (dictionaries built by the
program have unique keys), Python values as the inductive `Value`, and the
remote bitable service — an external collaborator of the repository — is
modelled from the spec where its behaviour decides a claim.
-/

set_option maxHeartbeats 1000000

namespace Tap

/-- A Python value as used by the sync engine: `None`, strings, integers and
lists.  (Floats only arise from the numeric-coercion step, which is kept
abstract: see `coerceNumeric`.) -/
inductive Value where
  | vnone
  | vstr (s : String)
  | vint (n : Int)
  | vlist (elems : List Value)

/-- Python `repr` on the embedded value domain (strings without escapes). -/
def pyRepr : Value → String
  | .vnone => "None"
  | .vstr s => "'" ++ s ++ "'"
  | .vint n => toString n
  | .vlist vs => "[" ++ String.intercalate ", " (vs.attach.map (fun v => pyRepr v.1)) ++ "]"
decreasing_by
  have := List.sizeOf_lt_of_mem v.2
  simp only [Value.vlist.sizeOf_spec]
  omega

/-- Python `str` on the embedded value domain. -/
def pyStr : Value → String
  | .vstr s => s
  | v => pyRepr v

/-- `to_str` / `value_to_str` from `commands.py`: `None` becomes `""`, lists are
comma-joined over `str` of the elements, anything else is `str`. -/
def toStr : Value → String
  | .vnone => ""
  | .vlist vs => String.intercalate "," (vs.map pyStr)
  | v => pyStr v

/-- Python truthiness on the embedded value domain. -/
def truthy : Value → Bool
  | .vnone => false
  | .vstr s => !(s == "")
  | .vint n => !(n == 0)
  | .vlist vs => !vs.isEmpty

/-- First-occurrence lookup in an association list (Python `dict.get`;
dictionaries built by the program have at most one binding per key). -/
def aget {α : Type} : List (String × α) → String → Option α
  | [], _ => none
  | (k', v) :: rest, k => if k' == k then some v else aget rest k

/-- Python `dict[k] = v`: replace the binding in place, appending if absent. -/
def ainsert {α : Type} : List (String × α) → String → α → List (String × α)
  | [], k, v => [(k, v)]
  | (k', v') :: rest, k, v =>
    if k' == k then (k, v) :: rest else (k', v') :: ainsert rest k v

/-- Python `k in dict`. -/
def amem {α : Type} (m : List (String × α)) (k : String) : Bool :=
  (aget m k).isSome

/-- A record-field dictionary. -/
abbrev Dict := List (String × Value)

/-- `dict.get(k)` where a missing key yields `None`. -/
def dgetV (d : Dict) (k : String) : Value :=
  (aget d k).getD .vnone

/-- Python `dst.update(src)`: write every binding of `src` into `dst` in
order. -/
def updateD {α : Type} (d : List (String × α)) (e : List (String × α)) :
    List (String × α) :=
  e.foldl (fun a p => ainsert a p.1 p.2) d

/-! ## Remote schema (`bitable_fields` in `commands.py`) -/

/-- The `property` dictionary of a remote field, restricted to the keys the
engine reads.  A `none` property stands for a missing or empty (falsy)
dictionary. -/
structure BProperty where
  tableId : Option String
  multiple : Bool
  relationType : Option String
  linkFieldName : Option String

/-- A remote field definition as returned by the field-listing endpoint. -/
structure BField where
  fieldName : String
  ftype : Int
  property : Option BProperty

/-- Truthiness of an optional string (Python `bool(d.get(k))`). -/
def optTruthy : Option String → Bool
  | none => false
  | some s => !(s == "")

/-- `bitable_field_map = {f.get("field_name"): f for f in bitable_fields}`. -/
def buildFieldMap (fields : List BField) : List (String × BField) :=
  fields.foldl (fun m f => ainsert m f.fieldName f) []

/-- The two relation-field collections built by `FlushCommand.run`:
`special_field_names` (relation-multi, dropped from writes) and
`single_link_fields` (relation-single, written via a follow-up patch). -/
structure FieldClasses where
  special : List String
  singleLink : List (String × Option String)

/-- Python `set.add`. -/
def saddStr (s : List String) (x : String) : List String :=
  if s.contains x then s else s ++ [x]

/-- One iteration of the field-classification loop (`commands.py` lines
179-200): a field whose property carries a truthy `table_id` is a relation
(single when not `multiple`, multi otherwise); otherwise a field of declared
type 21 is single when its property says `relation_type == "one"` or not
`multiple`, and multi when its property is missing or marks `multiple`. -/
def classifyStep (c : FieldClasses) (f : BField) : FieldClasses :=
  match f.property with
  | some p =>
    if optTruthy p.tableId then
      if !p.multiple then
        { c with singleLink := ainsert c.singleLink f.fieldName p.tableId }
      else
        { c with special := saddStr c.special f.fieldName }
    else if f.ftype == 21 then
      if p.relationType == some "one" || !p.multiple then
        { c with singleLink := ainsert c.singleLink f.fieldName p.tableId }
      else
        { c with special := saddStr c.special f.fieldName }
    else c
  | none =>
    if f.ftype == 21 then { c with special := saddStr c.special f.fieldName }
    else c

/-- The full classification pass over the fetched schema. -/
def classifyFields (fields : List BField) : FieldClasses :=
  fields.foldl classifyStep ⟨[], []⟩

/-! ## Remote records and the identity map -/

/-- A remote record: id plus field dictionary. -/
structure Record where
  recordId : String
  rfields : Dict

/-- `record_map` construction (`commands.py` lines 212-217): keep records whose
`数据ID` field is truthy, keyed by its `to_str`; a later record with the same
key overwrites an earlier one. -/
def buildRecordMap (records : List Record) : List (String × Record) :=
  records.foldl
    (fun m r =>
      if truthy (dgetV r.rfields "数据ID") then
        ainsert m (toStr (dgetV r.rfields "数据ID")) r
      else m) []

/-- `FlushCommand._generate_data_id`: `企业ID + "_" + 数据集 + 会计期间 +
报表类型`, each component `to_str`-converted (missing or `None` gives `""`). -/
def generateDataId (frozenData : Dict) : String :=
  toStr (dgetV frozenData "企业ID") ++ "_" ++ toStr (dgetV frozenData "数据集")
    ++ toStr (dgetV frozenData "会计期间") ++ toStr (dgetV frozenData "报表类型")

/-! ## Link cache (`link_cache` in `commands.py`) -/

/-- The hard-coded source-column rename table (`field_name_mapping`). -/
def fieldNameMapping (name : String) : String :=
  if name == "企业简称" then "企业" else name

/-- `{字段值: record_id}` for one related table: records with a truthy display
value, stringified with `str`, later duplicates overwriting earlier ones. -/
def buildTableCache (linkField : String) (recs : List Record) :
    List (String × String) :=
  recs.foldl
    (fun m r =>
      let v := dgetV r.rfields linkField
      if truthy v then ainsert m (pyStr v) r.recordId else m) []

/-- The link-cache construction loop (`commands.py` lines 226-246): for each
single-link field, if its table id is truthy and not yet cached, fetch the
related table's records and build the value-to-id cache; a failed fetch
(table absent) leaves the cache entry missing. -/
def buildLinkCache (linkTables : List (String × List Record))
    (singleLink : List (String × Option String)) :
    List (String × List (String × String)) :=
  singleLink.foldl
    (fun cache p =>
      let linkField := fieldNameMapping p.1
      match p.2 with
      | some tid =>
        if !(tid == "") && !(amem cache tid) then
          match aget linkTables tid with
          | some recs => ainsert cache tid (buildTableCache linkField recs)
          | none => cache
        else cache
      | none => cache) []

/-! ## The per-row reconciliation (`commands.py` lines 264-352) -/

/-- The context the row loop reads: schema map, field classes, identity map of
existing records, link cache. -/
structure RowCtx where
  fieldMap : List (String × BField)
  special : List String
  singleLink : List (String × Option String)
  recordMap : List (String × Record)
  linkCache : List (String × List (String × String))

/-- `merged_fields`: frozen-zone values, then data-zone values, then the
injected `数据ID`. -/
def mergedFields (frozenData dataRow : Dict) (dataId : String) : Dict :=
  ainsert (updateD (updateD [] frozenData) dataRow) "数据ID" (.vstr dataId)

/-- Python `value is None or value == ""` (the values numeric coercion
skips). -/
def isNoneOrEmptyStr : Value → Bool
  | .vnone => true
  | .vstr s => s == ""
  | _ => false

/-- The numeric-coercion loop (`commands.py` lines 280-287): for every
type-2 field of the schema map present in the dictionary with a value other
than `None` or `""`, replace the value with `float(value)`; a failed parse
keeps the original value.  The behaviour of Python `float` is kept abstract as
the parameter `fc` (`none` meaning the parse raised), since floating-point
semantics have no faithful shallow embedding. -/
def coerceStep (fc : Value → Option Value) (fs : Dict) (p : String × BField) :
    Dict :=
  if p.2.ftype == (2 : Int) && amem fs p.1 then
    if !(isNoneOrEmptyStr (dgetV fs p.1)) then
      match fc (dgetV fs p.1) with
      | some w => ainsert fs p.1 w
      | none => fs
    else fs
  else fs

def coerceNumeric (fc : Value → Option Value) (fieldMap : List (String × BField))
    (fields : Dict) : Dict :=
  fieldMap.foldl (coerceStep fc) fields

/-- `link_field_values` (`commands.py` lines 290-304): for each single-link
field appearing in the merged row, look up `str(value)` in the related table's
cache; a hit records the field with the target record id. -/
def linkFieldValues (singleLink : List (String × Option String))
    (linkCache : List (String × List (String × String))) (merged : Dict) :
    List (String × String) :=
  singleLink.foldl
    (fun acc p =>
      if amem merged p.1 then
        let linkValue := pyStr (dgetV merged p.1)
        match p.2 with
        | some tid =>
          if !(tid == "") && !(linkValue == "") then
            match aget linkCache tid with
            | some tbl =>
              match aget tbl linkValue with
              | some rid => if !(rid == "") then ainsert acc p.1 rid else acc
              | none => acc
            | none => acc
          else acc
        | none => acc
      else acc) []

/-- `create_fields` (the primary write payload): the merged fields minus
relation-multi (`special_field_names`) names, numeric values coerced, minus
single-link names. -/
def rowPayload (fc : Value → Option Value) (ctx : RowCtx) (merged : Dict) :
    Dict :=
  let filtered := merged.filter (fun p => !(ctx.special.contains p.1))
  let coerced := coerceNumeric fc ctx.fieldMap filtered
  coerced.filter (fun p => !(amem ctx.singleLink p.1))

/-- `needs_update` (`commands.py` lines 322-328): some merged binding whose key
is in the existing record and not a single-link field compares
string-different. -/
def needsUpdate (singleLink : List (String × Option String))
    (merged existingFields : Dict) : Bool :=
  merged.any (fun p =>
    amem existingFields p.1 && !(amem singleLink p.1)
      && !(toStr p.2 == toStr (dgetV existingFields p.1)))

/-- The decision the row loop takes for one source row. -/
inductive RowAction where
  | create (payload : Dict) (links : List (String × String)) (dataId : String)
  | update (recordId : String) (payload : Dict)
      (links : List (String × String)) (dataId : String)
  | unchanged

/-- The classification constructor alone. -/
inductive ActionKind where
  | create
  | update
  | unchanged
deriving DecidableEq, Repr

def RowAction.kind : RowAction → ActionKind
  | .create _ _ _ => .create
  | .update _ _ _ _ => .update
  | .unchanged => .unchanged

/-- One iteration of the classification loop: compute the identity key, merge
the zones, build payload and pending link writes, then create / update /
unchanged against the identity map. -/
def classifyRow (fc : Value → Option Value) (ctx : RowCtx)
    (frozenData dataRow : Dict) : RowAction :=
  let dataId := generateDataId frozenData
  let merged := mergedFields frozenData dataRow dataId
  let links := linkFieldValues ctx.singleLink ctx.linkCache merged
  let payload := rowPayload fc ctx merged
  match aget ctx.recordMap dataId with
  | some existingRecord =>
    if needsUpdate ctx.singleLink merged existingRecord.rfields then
      .update existingRecord.recordId payload links dataId
    else .unchanged
  | none => .create payload links dataId

/-! ## The write phase (`commands.py` lines 354-474) and the remote service -/

/-- The target table's state on the remote service. -/
structure RemoteState where
  records : List Record

def stateIds (st : RemoteState) : List String := st.records.map (·.recordId)

/-- Modelled from the spec: the service assigns every created record a fresh
id distinct from all existing ones (realised here as a string strictly longer
than every id in scope). -/
def concatIds (ids : List String) : String :=
  ids.foldl (fun a b => a ++ b) "r"

/-- The records a batch create brings into being, in payload order, each with
a fresh id. -/
def mkCreated (ids : List String) : List Dict → List Record
  | [] => []
  | p :: rest =>
    let rid := concatIds ids
    ⟨rid, p⟩ :: mkCreated (ids ++ [rid]) rest

/-- Modelled from the spec: `batch_create` stores one new record per payload
holding exactly the given fields and returns the created records in order. -/
def batchCreate (st : RemoteState) (payloads : List Dict) :
    RemoteState × List Record :=
  let newRecs := mkCreated (stateIds st) payloads
  ({ records := st.records ++ newRecs }, newRecs)

/-- What one `update_record` call does to one stored record: the record with
the given id has the payload merged into its fields, others are untouched. -/
def mergeFn (rid : String) (payload : Dict) (r : Record) : Record :=
  if r.recordId == rid then { r with rfields := updateD r.rfields payload }
  else r

/-- Modelled from the spec: `update_record` merges the payload into the fields
of the record with the given id (partial update, other fields untouched). -/
def updateOne (st : RemoteState) (rid : String) (payload : Dict) : RemoteState :=
  { records := st.records.map (mergeFn rid payload) }

/-- The follow-up single-field relation writes after a create or update:
`update_record(..., {field_name: [record_id]})` per pending link. -/
def applyLinkPatches (st : RemoteState) (rid : String)
    (links : List (String × String)) : RemoteState :=
  links.foldl (fun s p => updateOne s rid [(p.1, .vlist [.vstr p.2])]) st

/-- Chunk collector: `acc` holds the current chunk reversed, `fuel` its
remaining capacity. -/
def chunksAux {α : Type} (n : Nat) : List α → List α → Nat → List (List α)
  | [], acc, _ => [acc.reverse]
  | x :: xs, acc, 0 => acc.reverse :: chunksAux n xs [x] (n - 1)
  | x :: xs, acc, fuel + 1 => chunksAux n xs (x :: acc) fuel

/-- `range(0, len(l), n)` slicing: successive chunks of at most `n` items. -/
def chunksOf {α : Type} (n : Nat) : List α → List (List α)
  | [] => []
  | x :: xs => chunksAux n xs [x] (n - 1)

theorem chunksAux_spec {α : Type} (n : Nat) (xs : List α) :
    ∀ (acc : List α) (fuel : Nat),
      chunksAux n xs acc fuel =
        (acc.reverse ++ xs.take fuel) :: chunksOf n (xs.drop fuel) := by
  induction xs with
  | nil => intro acc fuel; simp [chunksAux, chunksOf]
  | cons x xs ih =>
    intro acc fuel
    cases fuel with
    | zero => simp [chunksAux, chunksOf]
    | succ f => simp [chunksAux, ih (x :: acc) f]

/-- The slicing equation of `chunksOf`. -/
theorem chunksOf_cons {α : Type} (n : Nat) (x : α) (xs : List α) :
    chunksOf n (x :: xs) =
      (x :: xs.take (n - 1)) :: chunksOf n (xs.drop (n - 1)) := by
  show chunksAux n xs [x] (n - 1) = _
  rw [chunksAux_spec]
  simp

/-- Chunking then flattening is the identity. -/
theorem chunksOf_flatten {α : Type} (n : Nat) (l : List α) :
    (chunksOf n l).flatten = l := by
  have H : ∀ (len : Nat) (l : List α), l.length = len →
      (chunksOf n l).flatten = l := by
    intro len
    induction len using Nat.strong_induction_on with
    | _ len ih =>
      intro l hl
      cases l with
      | nil => rfl
      | cons x xs =>
        rw [chunksOf_cons]
        have hlt : (xs.drop (n - 1)).length < len := by
          rw [← hl]
          simp only [List.length_drop, List.length_cons]
          omega
        simp only [List.flatten_cons, ih _ hlt _ rfl]
        simp [List.take_append_drop]
  exact H l.length l rfl

/-- A pending create (`to_create` plus its `to_create_ids` entry): primary
payload, pending relation writes, the row's data id. -/
abbrev CreateIns := Dict × List (String × String) × String

/-- A pending update (`to_update` plus its `to_update_ids` entry): target
record id, primary payload, pending relation writes, the row's data id. -/
abbrev UpdateIns := String × Dict × List (String × String) × String

/-- One create chunk on the success path: one batch-create call, then the
relation patches per created record (`commands.py` lines 362-387). -/
def applyCreateChunk (st : RemoteState) (chunk : List CreateIns) : RemoteState :=
  let r := batchCreate st (chunk.map (·.1))
  ((chunk.map (·.2.1)).zip r.2).foldl
    (fun s p => applyLinkPatches s p.2.recordId p.1) r.1

/-- The batch-create phase: chunks of at most 500. -/
def applyCreates (st : RemoteState) (creates : List CreateIns) : RemoteState :=
  (chunksOf 500 creates).foldl applyCreateChunk st

/-- One update chunk on the success path: one batch-update call (each item
merged into its record), then the relation patches (`commands.py` lines
424-447). -/
def applyUpdateChunk (st : RemoteState) (chunk : List UpdateIns) : RemoteState :=
  let st1 := chunk.foldl (fun s u => updateOne s u.1 u.2.1) st
  chunk.foldl (fun s u => applyLinkPatches s u.1 u.2.2.1) st1

/-- The batch-update phase: chunks of at most 500. -/
def applyUpdates (st : RemoteState) (updates : List UpdateIns) : RemoteState :=
  (chunksOf 500 updates).foldl applyUpdateChunk st

/-- The run statistics (`stats` in `FlushCommand.run`). -/
structure SyncStats where
  total : Nat
  created : Nat
  updated : Nat
  unchanged : Nat
  errors : Nat
deriving DecidableEq, Repr

def createOf : RowAction → Option CreateIns
  | .create p l d => some (p, l, d)
  | _ => none

def updateOf : RowAction → Option UpdateIns
  | .update rid p l d => some (rid, p, l, d)
  | _ => none

def isUnchanged : RowAction → Bool
  | .unchanged => true
  | _ => false

/-- Everything `FlushCommand.run` reads besides the target table: source rows
(frozen and data zones, already zipped row-wise by the reader), the fetched
schema, and the other tables (for link caches). -/
structure RunInput where
  frozenRows : List Dict
  dataRows : List Dict
  schema : List BField
  linkTables : List (String × List Record)

/-- The context the row loop runs in, assembled exactly as the setup phase of
`FlushCommand.run` does. -/
def buildCtx (input : RunInput) (st : RemoteState) : RowCtx :=
  let classes := classifyFields input.schema
  { fieldMap := buildFieldMap input.schema
    special := classes.special
    singleLink := classes.singleLink
    recordMap := buildRecordMap st.records
    linkCache := buildLinkCache input.linkTables classes.singleLink }

/-- The classification pass over all rows (`zip(frozen_data_list, data_rows)`). -/
def rowActions (fc : Value → Option Value) (ctx : RowCtx) (input : RunInput) :
    List RowAction :=
  (input.frozenRows.zip input.dataRows).map (fun p => classifyRow fc ctx p.1 p.2)

/-- `FlushCommand.run` in record mode on the success path (every remote call
succeeds, so no per-row exception fires and the batch fallback is not
entered): classify all rows, then batch-create, then batch-update, returning
the statistics and the resulting remote table. -/
def flushRun (fc : Value → Option Value) (input : RunInput) (st : RemoteState) :
    SyncStats × RemoteState :=
  let ctx := buildCtx input st
  let actions := rowActions fc ctx input
  let creates := actions.filterMap createOf
  let updates := actions.filterMap updateOf
  let st1 := applyCreates st creates
  let st2 := applyUpdates st1 updates
  ({ total := input.dataRows.length
     created := creates.length
     updated := updates.length
     unchanged := (actions.filter isUnchanged).length
     errors := 0 }, st2)

/-! ## The resilient request layer (`FeishuClient._request`, `client.py`
lines 55-120) -/

/-- Retry configuration constants (`client.py` lines 12-15). -/
def MAX_RETRIES : Nat := 5

def INITIAL_BACKOFF : Nat := 1

def MAX_BACKOFF : Nat := 60

def BACKOFF_MULTIPLIER : Nat := 2

/-- One HTTP response: transport status and the API-level `code` of the JSON
body (meaningful when the status is below 400). -/
structure HttpResp where
  status : Nat
  code : Int
deriving DecidableEq, Repr

/-- The status tuple of the server-error retry branch (`client.py` line 84). -/
def retryStatusTuple (s : Nat) : Bool :=
  s == 429 || s == 500 || s == 502 || s == 503 || s == 504

/-- The retryable API-level codes (`retry_codes = [9, 9999]`, line 107). -/
def isRetryCode (c : Int) : Bool :=
  c == 9 || c == 9999

/-- How `_request` ends. -/
inductive ReqResult where
  | success
  | notFound
  | httpError (status : Nat)
  | apiError (code : Int)
  | retryExhausted
deriving DecidableEq, Repr

/-- The attempt loop of `_request`, driven by the successive responses the
server would give; returns the outcome and the sequence of sleeps (seconds).
`fuel` is the number of loop iterations left, so at `fuel = f + 1` the Python
`attempt` equals `MAX_RETRIES - (f + 1)` and the guard
`attempt < MAX_RETRIES - 1` is `1 ≤ f`.  A 429 always sleeps and retries (no
attempt guard in that branch); 404 raises at once; other 4xx/5xx retry only
under the guard, else raise the HTTP error; a non-zero body code retries only
for the codes in `retry_codes` under the guard, else raises the API error;
falling out of the loop raises the retry-exhausted error. -/
def requestLoop : Nat → List HttpResp → Nat → ReqResult × List Nat
  | 0, _, _ => (.retryExhausted, [])
  | _ + 1, [], _ => (.retryExhausted, [])
  | f + 1, r :: rest, backoff =>
    if r.status == 429 then
      let next := requestLoop f rest (backoff * BACKOFF_MULTIPLIER)
      (next.1, min backoff MAX_BACKOFF :: next.2)
    else if 400 ≤ r.status then
      if r.status == 404 then (.notFound, [])
      else if retryStatusTuple r.status && decide (1 ≤ f) then
        let next := requestLoop f rest (backoff * BACKOFF_MULTIPLIER)
        (next.1, min backoff MAX_BACKOFF :: next.2)
      else (.httpError r.status, [])
    else if !(r.code == 0) then
      if isRetryCode r.code && decide (1 ≤ f) then
        let next := requestLoop f rest (backoff * BACKOFF_MULTIPLIER)
        (next.1, min backoff MAX_BACKOFF :: next.2)
      else (.apiError r.code, [])
    else (.success, [])

/-- `_request` entry point: 5 attempts, backoff starting at 1. -/
def runRequest (resps : List HttpResp) : ReqResult × List Nat :=
  requestLoop MAX_RETRIES resps INITIAL_BACKOFF

/-! ## Pagination (`get_fields` lines 175-201, `get_records` lines 236-266) -/

/-- One page of a paginated response: the `items` list (possibly `null`), the
`has_more` flag (absent defaulting to false) and the continuation
`page_token`. -/
structure Page (α : Type) where
  items : Option (List α)
  hasMore : Bool
  pageToken : Option String

/-- The shared page loop of `get_fields` / `get_records` / `get_bitable_list`:
extend with the page's items when not `null`; stop when `has_more` is falsy or
the continuation token is missing or empty; otherwise fetch the next page.
Returns the accumulated items and the number of pages fetched. -/
def paginateLoop {α : Type} : List (Page α) → List α × Nat
  | [] => ([], 0)
  | p :: rest =>
    let got := p.items.getD []
    if p.hasMore then
      match p.pageToken with
      | some tok =>
        if !(tok == "") then
          let next := paginateLoop rest
          (got ++ next.1, next.2 + 1)
        else (got, 1)
      | none => (got, 1)
    else (got, 1)

/-- Whether a page lets the loop continue: `has_more` truthy and a truthy
continuation token. -/
def pageContinues {α : Type} (p : Page α) : Bool :=
  p.hasMore && optTruthy p.pageToken

/-- The `page_size` parameter `get_fields` sends on every page request
(`client.py` line 181): the literal 100 — the method takes no page-size
argument at all. -/
def fieldsRequestPageSize : Nat := 100

/-- The `page_size` parameter `get_records` sends on every page request
(`client.py` line 244): `min(page_size, 500)` of the caller's argument. -/
def recordsRequestPageSize (pageSize : Nat) : Nat := min pageSize 500

/-- The default of `get_records`' `page_size` argument (line 238). -/
def recordsPageSizeDefault : Nat := 500

/-! ## Field mode (`commands.py` lines 138-168) and the client's method set -/

/-- The methods the class `FeishuClient` defines (`client.py`). -/
def feishuClientMethods : List String :=
  ["_get_tenant_access_token", "_request", "get_app_info", "get_bitable_list",
   "get_bitable", "get_tables", "get_table", "get_fields", "get_field",
   "create_field", "update_field", "delete_field", "get_records", "get_record",
   "create_record", "create_records", "update_record", "update_records",
   "delete_record", "delete_records", "batch_get_records"]

/-- The attribute the field-mode branch invokes to batch-create the missing
fields (`commands.py` line 159). -/
def fieldModeBatchCreateAttr : String := "create_fields"

/-- `link_fields` (lines 140-143): names of fields with declared type 21. -/
def linkTypeFieldNames (schema : List BField) : List String :=
  schema.foldl
    (fun s f => if f.ftype == (21 : Int) then saddStr s f.fieldName else s) []

/-- `missing_fields` (lines 145-154): source headers that are non-empty,
absent from the schema map and not link fields, each paired with the text
type code 1. -/
def missingFields (schema : List BField) (dataHeaders : List String) :
    List (String × Int) :=
  let fieldMap := buildFieldMap schema
  let linkFields := linkTypeFieldNames schema
  dataHeaders.foldl
    (fun acc h =>
      if !(h == "") && !(amem fieldMap h) && !(linkFields.contains h) then
        acc ++ [(h, (1 : Int))]
      else acc) []

/-- How the field-mode branch ends. -/
inductive FieldModeOutcome where
  | proceeded
  | attributeErrorAbort
deriving DecidableEq, Repr

/-- The field-mode branch: with no missing fields nothing is created and the
run proceeds; with at least one missing field the code invokes
`self.client.create_fields(...)` — an attribute `FeishuClient` does not define
(see `feishuClientMethods`), so the call raises `AttributeError`, which the
enclosing handler of `run` turns into an aborted run returning
`(False, {})`. -/
def fieldModePhase (schema : List BField) (dataHeaders : List String) :
    FieldModeOutcome :=
  if (missingFields schema dataHeaders).isEmpty then .proceeded
  else .attributeErrorAbort

/-! ## Association-list lemmas -/

theorem aget_ainsert {α : Type} (m : List (String × α)) (k : String) (v : α)
    (k' : String) :
    aget (ainsert m k v) k' = if k = k' then some v else aget m k' := by
  induction m with
  | nil => by_cases h : k = k' <;> simp [ainsert, aget, h]
  | cons p rest ih =>
    obtain ⟨a, b⟩ := p
    by_cases h1 : a = k
    · subst h1
      by_cases h2 : a = k' <;> simp [ainsert, aget, h2]
    · by_cases h4 : a = k'
      · subst h4
        have h2 : ¬ (k = a) := fun hh => h1 hh.symm
        simp [ainsert, aget, h1, h2]
      · by_cases h2 : k = k'
        · subst h2
          simp [ainsert, aget, h1, h4, ih]
        · simp [ainsert, aget, h1, h2, h4, ih]

theorem amem_ainsert {α : Type} (m : List (String × α)) (k : String) (v : α)
    (k' : String) :
    amem (ainsert m k v) k' = (k = k' || amem m k') := by
  by_cases h : k = k' <;> simp [amem, aget_ainsert, h]

theorem amem_eq_true_iff {α : Type} (m : List (String × α)) (k : String) :
    amem m k = true ↔ ∃ v, aget m k = some v := by
  simp [amem, Option.isSome_iff_exists]

theorem amem_eq_false_iff {α : Type} (m : List (String × α)) (k : String) :
    amem m k = false ↔ aget m k = none := by
  cases h : aget m k <;> simp [amem, h]

/-- A present key is among the stored keys. -/
theorem aget_mem_of_some {α : Type} (m : List (String × α)) (k : String) (v : α)
    (h : aget m k = some v) : k ∈ m.map Prod.fst := by
  induction m with
  | nil => simp [aget] at h
  | cons p rest ih =>
    simp only [aget] at h
    by_cases hq : p.1 = k
    · simp [hq]
    · simp only [List.map_cons, List.mem_cons]
      exact Or.inr (ih (by simpa [hq] using h))

theorem aget_eq_none_of_not_mem {α : Type} (m : List (String × α)) (k : String)
    (h : k ∉ m.map Prod.fst) : aget m k = none := by
  cases hr : aget m k with
  | none => rfl
  | some v => exact absurd (aget_mem_of_some m k v hr) h

/-- Lookup after a dictionary merge, when the merged-in bindings have unique
keys: bindings of `e` win, everything else falls through to `d`. -/
theorem aget_updateD_nodup {α : Type} (d e : List (String × α)) (k : String)
    (h : (e.map Prod.fst).Nodup) :
    aget (updateD d e) k = (aget e k).orElse (fun _ => aget d k) := by
  induction e generalizing d with
  | nil => simp [updateD, aget, Option.orElse]
  | cons p rest ih =>
    simp only [List.map_cons, List.nodup_cons] at h
    show aget (updateD (ainsert d p.1 p.2) rest) k = _
    rw [ih (ainsert d p.1 p.2) h.2, aget_ainsert]
    by_cases hk : p.1 = k
    · subst hk
      have hnone : aget rest p.1 = none := aget_eq_none_of_not_mem rest p.1 h.1
      simp [hnone, aget, Option.orElse]
    · simp [aget, hk, Option.orElse]

/-- Merging a dictionary none of whose keys is `k` leaves the binding at `k`
unchanged. -/
theorem aget_updateD_of_not_mem {α : Type} (d e : List (String × α))
    (k : String) (h : ∀ p ∈ e, p.1 ≠ k) :
    aget (updateD d e) k = aget d k := by
  induction e generalizing d with
  | nil => rfl
  | cons p rest ih =>
    have hp : p.1 ≠ k := h p (List.mem_cons_self p rest)
    have hrest : ∀ q ∈ rest, q.1 ≠ k := fun q hq => h q (List.mem_cons_of_mem p hq)
    show aget (updateD (ainsert d p.1 p.2) rest) k = aget d k
    rw [ih (ainsert d p.1 p.2) hrest, aget_ainsert]
    simp [hp]

/-- A key-only filter commutes with lookup: keys failing the predicate read as
absent, keys passing it read unchanged. -/
theorem aget_filter_key {α : Type} (m : List (String × α)) (q : String → Bool)
    (k : String) :
    aget (m.filter (fun p => q p.1)) k = if q k then aget m k else none := by
  induction m with
  | nil => simp [aget]
  | cons p rest ih =>
    by_cases hq : q p.1
    · by_cases hk : p.1 = k
      · subst hk
        simp [List.filter_cons, hq, aget]
      · simp [List.filter_cons, hq, aget, hk, ih]
    · by_cases hk : p.1 = k
      · subst hk
        simp only [List.filter_cons, Bool.not_eq_true] at *
        simp [hq, ih, aget]
      · simp only [List.filter_cons, Bool.not_eq_true] at *
        simp [hq, ih, aget, hk]

/-! ## C7: the identity key -/

/-- C7: the generated IdentityKey is the enterprise-id value, an underscore,
then the dataset, period and report-type values concatenated with no further
separator, each component `to_str`-converted so that a missing or `None`
component contributes the empty string rather than being omitted; the example
row `{企业ID: "E1", 数据集: "D", 会计期间: "2024Q1", 报表类型: "R"}` yields
`"E1_D2024Q1R"`. -/
theorem c7_identity_key :
    (∀ frozenData : Dict,
      generateDataId frozenData =
        toStr (dgetV frozenData "企业ID") ++ "_" ++ toStr (dgetV frozenData "数据集")
          ++ toStr (dgetV frozenData "会计期间") ++ toStr (dgetV frozenData "报表类型"))
    ∧ toStr .vnone = ""
    ∧ (∀ k : String, dgetV [] k = .vnone)
    ∧ generateDataId [("数据集", .vstr "D")] = "_D"
    ∧ generateDataId [("企业ID", .vnone), ("数据集", .vstr "D"),
        ("会计期间", .vnone), ("报表类型", .vnone)] = "_D"
    ∧ generateDataId [("企业ID", .vstr "E1"), ("数据集", .vstr "D"),
        ("会计期间", .vstr "2024Q1"), ("报表类型", .vstr "R")] = "E1_D2024Q1R" := by
  refine ⟨fun _ => rfl, rfl, fun _ => rfl, ?_, ?_, ?_⟩ <;> rfl

/-! ## C4: field mode calls a client method that does not exist -/

/-- C4 (code bug): the field-mode branch collects the missing scalar headers
but then invokes `self.client.create_fields(...)`, an attribute `FeishuClient`
never defines (only the singular `create_field` exists), so any run in field
mode with at least one missing field raises `AttributeError` and aborts with
`(False, {})` instead of creating the fields and proceeding. -/
theorem c4_field_mode_bug :
    fieldModeBatchCreateAttr ∉ feishuClientMethods
    ∧ (∀ (schema : List BField) (dataHeaders : List String),
        missingFields schema dataHeaders ≠ [] →
        fieldModePhase schema dataHeaders = .attributeErrorAbort)
    ∧ missingFields [] ["新列"] = [("新列", 1)] := by
  refine ⟨by decide, ?_, by decide⟩
  intro schema dataHeaders h
  unfold fieldModePhase
  simp [List.isEmpty_iff, h]

/-- Witness for `c4_field_mode_bug`: the empty schema with one new header. -/
theorem c4_field_mode_bug_witness :
    fieldModePhase [] ["新列"] = .attributeErrorAbort :=
  c4_field_mode_bug.2.1 [] ["新列"] (by decide)

/-! ## C8: page sizes -/

/-- C8 (counterexample): `get_records` sends `min(page_size, 500)`, so a
caller-requested page size of 10 is passed through — the record page size is
not the fixed 500 independent of the caller. -/
theorem c8_counterexample :
    recordsRequestPageSize 10 = 10 ∧ recordsRequestPageSize 10 ≠ 500 := by
  decide

/-- C8 (amended): the field-listing page size is the fixed literal 100 (the
method takes no page-size argument), while the record-listing page size is
`min(callerRequested, 500)`: capped at 500 — and 500 for the default and any
request of at least 500 — but a smaller caller-requested size is passed
through rather than overridden. -/
theorem c8_amended :
    fieldsRequestPageSize = 100
    ∧ (∀ ps : Nat, recordsRequestPageSize ps = min ps 500)
    ∧ recordsRequestPageSize recordsPageSizeDefault = 500
    ∧ (∀ ps : Nat, 500 ≤ ps → recordsRequestPageSize ps = 500) := by
  refine ⟨rfl, fun _ => rfl, rfl, fun ps h => ?_⟩
  simp [recordsRequestPageSize, Nat.min_eq_right h]

/-- Witness for `c8_amended`: a request of 600 is capped to 500. -/
theorem c8_amended_witness : recordsRequestPageSize 600 = 500 :=
  c8_amended.2.2.2 600 (by decide)

/-! ## C10: exclusion from the identity map -/

/-- Every record the identity map can return has a truthy `数据ID`. -/
theorem recordMap_invariant (records : List Record)
    (m : List (String × Record))
    (hm : ∀ k R, aget m k = some R → truthy (dgetV R.rfields "数据ID") = true) :
    ∀ k R,
      aget (records.foldl
        (fun m r =>
          if truthy (dgetV r.rfields "数据ID") then
            ainsert m (toStr (dgetV r.rfields "数据ID")) r
          else m) m) k = some R →
      truthy (dgetV R.rfields "数据ID") = true := by
  induction records generalizing m with
  | nil => exact hm
  | cons r rest ih =>
    intro k R h
    simp only [List.foldl_cons] at h
    refine ih _ ?_ _ _ h
    intro k' R' h'
    by_cases ht : truthy (dgetV r.rfields "数据ID") = true
    · rw [if_pos ht, aget_ainsert] at h'
      by_cases hk : toStr (dgetV r.rfields "数据ID") = k'
      · rw [if_pos hk] at h'
        cases h'
        exact ht
      · rw [if_neg hk] at h'
        exact hm k' R' h'
    · rw [if_neg ht] at h'
      exact hm k' R' h'

/-- Every generated identity key contains the underscore separator. -/
theorem generateDataId_has_underscore (frozenData : Dict) :
    '_' ∈ (generateDataId frozenData).data := by
  unfold generateDataId
  simp only [String.data_append]
  simp

/-- C10: the identity map excludes every remote record whose `数据ID` is
absent (read as `None`), `None`, or the empty string — any record the map
returns has a truthy identity value; every generated IdentityKey contains the
underscore and is non-empty; a row with all four frozen-zone components empty
yields the key `"_"`, and a row whose key is absent from the map is classified
as a create. -/
theorem c10_record_map_exclusion :
    (∀ (records : List Record) (k : String) (R : Record),
        aget (buildRecordMap records) k = some R →
        truthy (dgetV R.rfields "数据ID") = true)
    ∧ (∀ (d : Dict) (k : String), aget d k = none → dgetV d k = .vnone)
    ∧ truthy .vnone = false
    ∧ truthy (.vstr "") = false
    ∧ (∀ frozenData : Dict,
        generateDataId frozenData ≠ "" ∧ '_' ∈ (generateDataId frozenData).data)
    ∧ generateDataId [] = "_"
    ∧ (∀ (fc : Value → Option Value) (ctx : RowCtx) (frozenData dataRow : Dict),
        aget ctx.recordMap (generateDataId frozenData) = none →
        (classifyRow fc ctx frozenData dataRow).kind = .create) := by
  refine ⟨?_, ?_, rfl, rfl, ?_, rfl, ?_⟩
  · intro records k R h
    exact recordMap_invariant records [] (by intro k' R' h'; cases h') k R h
  · intro d k h
    simp [dgetV, h]
  · intro frozenData
    refine ⟨?_, generateDataId_has_underscore frozenData⟩
    intro h
    have := generateDataId_has_underscore frozenData
    rw [h] at this
    simp at this
  · intro fc ctx frozenData dataRow h
    simp only [classifyRow, h]
    rfl

/-- Witness for `c10_record_map_exclusion`: a one-record map and an empty
context. -/
theorem c10_record_map_exclusion_witness :
    truthy (dgetV (Record.mk "r1" [("数据ID", .vstr "X_")]).rfields "数据ID") = true
    ∧ dgetV [("a", .vstr "x")] "b" = .vnone
    ∧ (classifyRow (fun _ => none)
        (buildCtx ⟨[], [], [], []⟩ ⟨[]⟩) [] []).kind = .create :=
  ⟨c10_record_map_exclusion.1 [⟨"r1", [("数据ID", .vstr "X_")]⟩] "X_" _ rfl,
   c10_record_map_exclusion.2.1 [("a", .vstr "x")] "b" rfl,
   c10_record_map_exclusion.2.2.2.2.2.2 (fun _ => none) _ [] [] rfl⟩

/-! ## Payload key lemmas -/

/-- A stored binding's key tests as present. -/
theorem amem_of_mem {α : Type} (m : List (String × α)) (p : String × α)
    (h : p ∈ m) : amem m p.1 = true := by
  induction m with
  | nil => cases h
  | cons q rest ih =>
    rcases List.mem_cons.mp h with rfl | h2
    · simp [amem, aget]
    · by_cases hq : q.1 = p.1
      · simp [amem, aget, hq]
      · simpa [amem, aget, hq] using ih h2

theorem not_key_of_amem_false {α : Type} (m : List (String × α)) (k : String)
    (h : amem m k = false) : ∀ p ∈ m, p.1 ≠ k := by
  intro p hp hk
  rw [← hk] at h
  rw [amem_of_mem m p hp] at h
  cases h

/-- One coercion step never adds or removes a key. -/
theorem amem_coerceStep (fc : Value → Option Value) (d : Dict)
    (p : String × BField) (k : String) :
    amem (coerceStep fc d p) k = amem d k := by
  unfold coerceStep
  by_cases hc : (p.2.ftype == (2 : Int) && amem d p.1) = true
  · rw [if_pos hc]
    by_cases hv : (!(isNoneOrEmptyStr (dgetV d p.1))) = true
    · rw [if_pos hv]
      cases hfc : fc (dgetV d p.1) with
      | none => rfl
      | some w =>
        have hmem : amem d p.1 = true := (Bool.and_eq_true _ _ |>.mp hc).2
        rw [amem_ainsert]
        by_cases hk : p.1 = k
        · subst hk
          simp [hmem]
        · simp [hk]
    · rw [if_neg hv]
  · rw [if_neg hc]

/-- Numeric coercion never adds or removes a key. -/
theorem amem_coerceNumeric (fc : Value → Option Value)
    (fieldMap : List (String × BField)) (d : Dict) (k : String) :
    amem (coerceNumeric fc fieldMap d) k = amem d k := by
  induction fieldMap generalizing d with
  | nil => rfl
  | cons p rest ih =>
    show amem (coerceNumeric fc rest (coerceStep fc d p)) k = amem d k
    rw [ih, amem_coerceStep]

/-- One step of a string-form-preserving coercion changes no binding's
`to_str` view. -/
theorem aget_coerceStep_toStr (fc : Value → Option Value)
    (hfc : ∀ v w, fc v = some w → toStr w = toStr v) (d : Dict)
    (p : String × BField) (k : String) :
    Option.map toStr (aget (coerceStep fc d p) k) =
      Option.map toStr (aget d k) := by
  unfold coerceStep
  by_cases hc : (p.2.ftype == (2 : Int) && amem d p.1) = true
  · rw [if_pos hc]
    by_cases hv : (!(isNoneOrEmptyStr (dgetV d p.1))) = true
    · rw [if_pos hv]
      cases hfc2 : fc (dgetV d p.1) with
      | none => rfl
      | some w =>
        have hmem : amem d p.1 = true := (Bool.and_eq_true _ _ |>.mp hc).2
        obtain ⟨v, hva⟩ := (amem_eq_true_iff d p.1).mp hmem
        rw [aget_ainsert]
        by_cases hk : p.1 = k
        · subst hk
          rw [if_pos rfl, hva]
          have hdg : dgetV d p.1 = v := by simp [dgetV, hva]
          rw [hdg] at hfc2
          simp [hfc _ _ hfc2]
        · rw [if_neg hk]
    · rw [if_neg hv]
  · rw [if_neg hc]

/-- Under a string-form-preserving coercion, coercion changes no binding's
`to_str` view. -/
theorem aget_coerceNumeric_toStr (fc : Value → Option Value)
    (hfc : ∀ v w, fc v = some w → toStr w = toStr v)
    (fieldMap : List (String × BField)) (d : Dict) (k : String) :
    Option.map toStr (aget (coerceNumeric fc fieldMap d) k) =
      Option.map toStr (aget d k) := by
  induction fieldMap generalizing d with
  | nil => rfl
  | cons p rest ih =>
    show Option.map toStr (aget (coerceNumeric fc rest (coerceStep fc d p)) k) = _
    rw [ih, aget_coerceStep_toStr fc hfc]

/-- Which keys the primary write payload holds: exactly the merged keys that
are neither relation-multi nor relation-single. -/
theorem amem_rowPayload (fc : Value → Option Value) (ctx : RowCtx)
    (merged : Dict) (k : String) :
    amem (rowPayload fc ctx merged) k =
      (amem merged k && !(ctx.special.contains k) && !(amem ctx.singleLink k)) := by
  show amem ((coerceNumeric fc ctx.fieldMap
      (merged.filter (fun p => !(ctx.special.contains p.1)))).filter
      (fun p => !(amem ctx.singleLink p.1))) k = _
  rw [amem,
    aget_filter_key
      (coerceNumeric fc ctx.fieldMap
        (merged.filter (fun p => !(ctx.special.contains p.1))))
      (fun s => !(amem ctx.singleLink s)) k]
  by_cases hs : amem ctx.singleLink k
  · simp [hs]
  · have h1 : (!(amem ctx.singleLink k)) = true := by simp [hs]
    rw [if_pos h1, ← amem, amem_coerceNumeric, amem,
      aget_filter_key merged (fun s => !(ctx.special.contains s)) k]
    by_cases hp : ctx.special.contains k
    · have hmem : k ∈ ctx.special := List.elem_iff.mp hp
      rw [if_neg (by simp [hmem])]
      simp [hmem]
    · have hnot : k ∉ ctx.special := fun hmem => hp (List.elem_iff.mpr hmem)
      have hnone : aget ctx.singleLink k = none := by
        cases h : aget ctx.singleLink k with
        | none => rfl
        | some v => exact absurd (by simp [amem, h]) hs
      rw [if_pos (by simp [hnot])]
      simp [hnone, hnot, amem]

/-! ## C3: the per-item fallback after a failed batch call -/

/-- The create fallback (`commands.py` lines 389-414): after the batch call
raised, every row of the chunk is retried with an individual `create_record`
call; the j-th entry of `okRow` says whether that call succeeds.  A success
increments `created` (and then issues the row's link patches); a failure is
printed and skipped — no counter is touched.  Returns the final statistics
and the number of individual create calls issued. -/
def createFallback (okRow : List Bool) (chunk : List CreateIns)
    (stats : SyncStats) : SyncStats × Nat :=
  ((chunk.zip okRow).foldl
    (fun st p => if p.2 then { st with created := st.created + 1 } else st)
    stats, (chunk.zip okRow).length)

/-- The update fallback (`commands.py` lines 448-474), same shape: a success
increments `updated`, a failure is printed and skipped. -/
def updateFallback (okRow : List Bool) (chunk : List UpdateIns)
    (stats : SyncStats) : SyncStats × Nat :=
  ((chunk.zip okRow).foldl
    (fun st p => if p.2 then { st with updated := st.updated + 1 } else st)
    stats, (chunk.zip okRow).length)

/-- C3 (counterexample): a failed batch create of 3 rows where the middle
individual retry also fails yields `created = 2` — and `errors` stays 0: the
fallback's failure handler only prints, so the failed row is never counted in
`errors`, contradicting the claim. -/
theorem c3_counterexample :
    (createFallback [true, false, true] [([], [], "a"), ([], [], "b"), ([], [], "c")]
      ⟨3, 0, 0, 0, 0⟩).1 = ⟨3, 2, 0, 0, 0⟩
    ∧ (createFallback [true, false, true] [([], [], "a"), ([], [], "b"), ([], [], "c")]
      ⟨3, 0, 0, 0, 0⟩).1.errors ≠ 1
    ∧ (updateFallback [false] [("r1", [], [], "a")] ⟨1, 0, 0, 0, 0⟩).1.errors ≠ 1 := by
  exact ⟨rfl, by decide, by decide⟩

theorem createFallback_spec (chunk : List CreateIns) (okRow : List Bool)
    (stats : SyncStats) (h : okRow.length = chunk.length) :
    (createFallback okRow chunk stats).2 = chunk.length
    ∧ (createFallback okRow chunk stats).1.created
        = stats.created + okRow.count true
    ∧ (createFallback okRow chunk stats).1.updated = stats.updated
    ∧ (createFallback okRow chunk stats).1.unchanged = stats.unchanged
    ∧ (createFallback okRow chunk stats).1.errors = stats.errors := by
  induction chunk generalizing okRow stats with
  | nil =>
    have : okRow = [] := List.length_eq_zero.mp h
    subst this
    simp [createFallback]
  | cons c rest ih =>
    cases okRow with
    | nil => cases h
    | cons b obs =>
      have h2 : obs.length = rest.length := by simpa using h
      have ihx := ih obs (if b then { stats with created := stats.created + 1 }
        else stats) h2
      cases b with
      | true =>
        simp only [createFallback, List.zip_cons_cons, List.foldl_cons,
          List.length_cons, if_true] at ihx ⊢
        refine ⟨by omega, ?_, ihx.2.2.1, ihx.2.2.2.1, ihx.2.2.2.2⟩
        · rw [ihx.2.1]
          simp [List.count_cons]
          omega
      | false =>
        simp only [createFallback, List.zip_cons_cons, List.foldl_cons,
          List.length_cons, if_false] at ihx ⊢
        refine ⟨by omega, ?_, ihx.2.2.1, ihx.2.2.2.1, ihx.2.2.2.2⟩
        · rw [ihx.2.1]
          simp [List.count_cons]

theorem updateFallback_spec (chunk : List UpdateIns) (okRow : List Bool)
    (stats : SyncStats) (h : okRow.length = chunk.length) :
    (updateFallback okRow chunk stats).2 = chunk.length
    ∧ (updateFallback okRow chunk stats).1.updated
        = stats.updated + okRow.count true
    ∧ (updateFallback okRow chunk stats).1.created = stats.created
    ∧ (updateFallback okRow chunk stats).1.unchanged = stats.unchanged
    ∧ (updateFallback okRow chunk stats).1.errors = stats.errors := by
  induction chunk generalizing okRow stats with
  | nil =>
    have : okRow = [] := List.length_eq_zero.mp h
    subst this
    simp [updateFallback]
  | cons c rest ih =>
    cases okRow with
    | nil => cases h
    | cons b obs =>
      have h2 : obs.length = rest.length := by simpa using h
      have ihx := ih obs (if b then { stats with updated := stats.updated + 1 }
        else stats) h2
      cases b with
      | true =>
        simp only [updateFallback, List.zip_cons_cons, List.foldl_cons,
          List.length_cons, if_true] at ihx ⊢
        refine ⟨by omega, ?_, ihx.2.2.1, ihx.2.2.2.1, ihx.2.2.2.2⟩
        · rw [ihx.2.1]
          simp [List.count_cons]
          omega
      | false =>
        simp only [updateFallback, List.zip_cons_cons, List.foldl_cons,
          List.length_cons, if_false] at ihx ⊢
        refine ⟨by omega, ?_, ihx.2.2.1, ihx.2.2.2.1, ihx.2.2.2.2⟩
        · rw [ihx.2.1]
          simp [List.count_cons]

/-- C3 (amended): when a batch create (update) chunk fails, every row of the
chunk is retried with an individual create (update) call; each success
increments `created` (`updated`); each failure is only logged — the `errors`
counter is left untouched by the fallback path. -/
theorem c3_amended :
    (∀ (chunk : List CreateIns) (okRow : List Bool) (stats : SyncStats),
      okRow.length = chunk.length →
      (createFallback okRow chunk stats).2 = chunk.length
      ∧ (createFallback okRow chunk stats).1.created
          = stats.created + okRow.count true
      ∧ (createFallback okRow chunk stats).1.errors = stats.errors)
    ∧ (∀ (chunk : List UpdateIns) (okRow : List Bool) (stats : SyncStats),
      okRow.length = chunk.length →
      (updateFallback okRow chunk stats).2 = chunk.length
      ∧ (updateFallback okRow chunk stats).1.updated
          = stats.updated + okRow.count true
      ∧ (updateFallback okRow chunk stats).1.errors = stats.errors) := by
  constructor
  · intro chunk okRow stats h
    obtain ⟨h1, h2, _, _, h5⟩ := createFallback_spec chunk okRow stats h
    exact ⟨h1, h2, h5⟩
  · intro chunk okRow stats h
    obtain ⟨h1, h2, _, _, h5⟩ := updateFallback_spec chunk okRow stats h
    exact ⟨h1, h2, h5⟩

/-- Witness for `c3_amended`: a 3-row chunk with one individual failure. -/
theorem c3_amended_witness :
    (createFallback [true, false, true] [([], [], "a"), ([], [], "b"), ([], [], "c")]
      ⟨3, 0, 0, 0, 0⟩).2 = 3
    ∧ (createFallback [true, false, true] [([], [], "a"), ([], [], "b"), ([], [], "c")]
      ⟨3, 0, 0, 0, 0⟩).1.created = 0 + [true, false, true].count true
    ∧ (createFallback [true, false, true] [([], [], "a"), ([], [], "b"), ([], [], "c")]
      ⟨3, 0, 0, 0, 0⟩).1.errors = 0 :=
  c3_amended.1 [([], [], "a"), ([], [], "b"), ([], [], "c")] [true, false, true]
    ⟨3, 0, 0, 0, 0⟩ (by decide)

/-! ## C1: the unchanged classification -/

/-- When every merged binding whose key the existing record holds (single-link
fields apart) compares string-equal, the diff loop reports no difference. -/
theorem needsUpdate_eq_false (singleLink : List (String × Option String))
    (merged existingFields : Dict)
    (h : ∀ k v, (k, v) ∈ merged → amem existingFields k = true →
        amem singleLink k = false → toStr v = toStr (dgetV existingFields k)) :
    needsUpdate singleLink merged existingFields = false := by
  rw [needsUpdate, List.any_eq_false]
  intro p hp hcontra
  simp only [Bool.and_eq_true, Bool.not_eq_true'] at hcontra
  obtain ⟨⟨hmem, hsl⟩, hneq⟩ := hcontra
  rw [h p.1 p.2 hp hmem hsl] at hneq
  simp at hneq

/-- C1 (amended): a source row whose IdentityKey matches an existing remote
record and whose field values — for every field present in both the merged row
and the remote record other than single-link fields, so relation-multi fields
included — compare string-equal (lists comma-joined) is classified unchanged
by the Reconciler, and contributes neither a create nor an update
instruction. -/
theorem c1_amended (fc : Value → Option Value) (ctx : RowCtx)
    (frozenData dataRow : Dict) (R : Record)
    (h1 : aget ctx.recordMap (generateDataId frozenData) = some R)
    (h2 : ∀ k v,
        (k, v) ∈ mergedFields frozenData dataRow (generateDataId frozenData) →
        amem R.rfields k = true → amem ctx.singleLink k = false →
        toStr v = toStr (dgetV R.rfields k)) :
    classifyRow fc ctx frozenData dataRow = .unchanged
    ∧ createOf (classifyRow fc ctx frozenData dataRow) = none
    ∧ updateOf (classifyRow fc ctx frozenData dataRow) = none := by
  have hnu := needsUpdate_eq_false ctx.singleLink
    (mergedFields frozenData dataRow (generateDataId frozenData)) R.rfields h2
  have hcl : classifyRow fc ctx frozenData dataRow = .unchanged := by
    simp only [classifyRow]
    rw [h1]
    simp [hnu]
  exact ⟨hcl, by rw [hcl]; rfl, by rw [hcl]; rfl⟩

/-- Witness for `c1_amended`: a one-field row matching its remote record. -/
theorem c1_amended_witness :
    classifyRow (fun _ => none)
      (buildCtx ⟨[[("企业ID", .vstr "E")]], [[]], [], []⟩
        ⟨[⟨"r1", [("数据ID", .vstr "E_")]⟩]⟩)
      [("企业ID", .vstr "E")] [] = .unchanged :=
  (c1_amended (fun _ => none)
    (buildCtx ⟨[[("企业ID", .vstr "E")]], [[]], [], []⟩
      ⟨[⟨"r1", [("数据ID", .vstr "E_")]⟩]⟩)
    [("企业ID", .vstr "E")] [] ⟨"r1", [("数据ID", .vstr "E_")]⟩ rfl
    (by
      intro k v hkv hmem hsl
      have hkv2 : (k, v) ∈
          [("企业ID", Value.vstr "E"), ("数据ID", Value.vstr "E_")] := hkv
      simp only [List.mem_cons, Prod.mk.injEq, List.not_mem_nil, or_false]
        at hkv2
      rcases hkv2 with ⟨rfl, rfl⟩ | ⟨rfl, rfl⟩
      · exact absurd hmem (by decide)
      · rfl)).1

/-- The C1 counterexample scenario: the remote schema declares `M` as a
relation-multi field (property with a related table id and `multiple`), the
remote record holds `M = "b"`, the source row holds `M = "a"`, and every
other field present in both sides agrees. -/
def c1Frozen : Dict :=
  [("企业ID", .vstr "E1"), ("数据集", .vstr "D"), ("会计期间", .vstr "2024Q1"),
   ("报表类型", .vstr "R")]

def c1Row : Dict := [("M", .vstr "a")]

def c1Existing : Record :=
  ⟨"rec1", [("数据ID", .vstr "E1_D2024Q1R"), ("M", .vstr "b")]⟩

def c1Input : RunInput :=
  { frozenRows := [c1Frozen]
    dataRows := [c1Row]
    schema := [⟨"M", 1, some ⟨some "T1", true, none, none⟩⟩]
    linkTables := [] }

def c1State : RemoteState := ⟨[c1Existing]⟩

/-- C1 (counterexample): the claim as stated is false — in the scenario above
the row's IdentityKey matches the existing record, every *non-relation* field
present in both sides compares string-equal (the Boolean scan below, which
skips both relation-multi and relation-single names, finds no mismatch), yet
the Reconciler classifies the row as an update and the run emits one update:
the diff loop of `commands.py` excludes only single-link fields, so the
relation-multi field `M` — which the write payload then drops — still drives
the comparison. -/
theorem c1_counterexample :
    amem (buildCtx c1Input c1State).recordMap (generateDataId c1Frozen) = true
    ∧ ((mergedFields c1Frozen c1Row (generateDataId c1Frozen)).any
        (fun p =>
          amem c1Existing.rfields p.1
          && !((buildCtx c1Input c1State).special.contains p.1)
          && !(amem (buildCtx c1Input c1State).singleLink p.1)
          && !(toStr p.2 == toStr (dgetV c1Existing.rfields p.1)))) = false
    ∧ (classifyRow (fun _ => none) (buildCtx c1Input c1State) c1Frozen c1Row).kind
        = .update
    ∧ (flushRun (fun _ => none) c1Input c1State).1.updated = 1
    ∧ (flushRun (fun _ => none) c1Input c1State).1.unchanged = 0 := by
  exact ⟨rfl, rfl, rfl, rfl, rfl⟩

/-! ## C9: the write payload's field frame -/

/-- C9: the primary write payload's keys are exactly the merged row's keys
(frozen zone, data zone and the injected identity field) minus every
relation-multi and relation-single name; a name absent from the merged row is
never in the payload, and merging the payload into a remote record leaves
every non-payload field's value untouched. -/
theorem c9_payload_frame (fc : Value → Option Value) (ctx : RowCtx)
    (frozenData dataRow : Dict) :
    (∀ k,
      amem (rowPayload fc ctx
        (mergedFields frozenData dataRow (generateDataId frozenData))) k =
        (amem (mergedFields frozenData dataRow (generateDataId frozenData)) k
          && !(ctx.special.contains k) && !(amem ctx.singleLink k)))
    ∧ (∀ k,
        amem (mergedFields frozenData dataRow (generateDataId frozenData)) k
          = false →
        amem (rowPayload fc ctx
          (mergedFields frozenData dataRow (generateDataId frozenData))) k
          = false)
    ∧ (∀ (existingFields : Dict) (k : String),
        amem (rowPayload fc ctx
          (mergedFields frozenData dataRow (generateDataId frozenData))) k
          = false →
        aget (updateD existingFields
          (rowPayload fc ctx
            (mergedFields frozenData dataRow (generateDataId frozenData)))) k =
          aget existingFields k) := by
  refine ⟨fun k => amem_rowPayload fc ctx _ k, fun k h => ?_, fun ef k h => ?_⟩
  · rw [amem_rowPayload, h]
    rfl
  · exact aget_updateD_of_not_mem ef _ k (not_key_of_amem_false _ k h)

/-- Witness for `c9_payload_frame`: a remote field `b` absent from the source
row keeps its value through the update merge. -/
theorem c9_payload_frame_witness :
    amem (rowPayload (fun _ => none) (buildCtx ⟨[], [], [], []⟩ ⟨[]⟩)
      (mergedFields [("a", .vstr "1")] [] (generateDataId [("a", .vstr "1")])))
      "b" = false
    ∧ aget (updateD [("b", Value.vstr "keep")]
        (rowPayload (fun _ => none) (buildCtx ⟨[], [], [], []⟩ ⟨[]⟩)
          (mergedFields [("a", .vstr "1")] []
            (generateDataId [("a", .vstr "1")])))) "b" =
      aget [("b", Value.vstr "keep")] "b" :=
  ⟨(c9_payload_frame (fun _ => none) (buildCtx ⟨[], [], [], []⟩ ⟨[]⟩)
      [("a", .vstr "1")] []).2.1 "b" rfl,
   (c9_payload_frame (fun _ => none) (buildCtx ⟨[], [], [], []⟩ ⟨[]⟩)
      [("a", .vstr "1")] []).2.2 [("b", Value.vstr "keep")] "b" rfl⟩

/-! ## C5: retry and exponential backoff -/

/-- A response the attempt loop reacts to by sleeping and retrying (when
attempts remain): HTTP 429, a 4xx/5xx in the retry tuple, or a success-status
body with a retryable API code. -/
def isRetryableResp (r : HttpResp) : Bool :=
  if r.status == 429 then true
  else if 400 ≤ r.status then retryStatusTuple r.status
  else isRetryCode r.code

/-- With at least two attempts left, any retryable response sleeps
`min backoff 60` and continues with a doubled backoff. -/
theorem requestLoop_retry_step (f : Nat) (r : HttpResp) (rest : List HttpResp)
    (backoff : Nat) (hr : isRetryableResp r = true) (hf : 1 ≤ f) :
    requestLoop (f + 1) (r :: rest) backoff =
      ((requestLoop f rest (backoff * BACKOFF_MULTIPLIER)).1,
        min backoff MAX_BACKOFF ::
          (requestLoop f rest (backoff * BACKOFF_MULTIPLIER)).2) := by
  unfold isRetryableResp at hr
  by_cases h429 : r.status == 429
  · simp [requestLoop, h429]
  · rw [if_neg h429] at hr
    by_cases h4 : 400 ≤ r.status
    · rw [if_pos h4] at hr
      have h404 : ¬ (r.status == 404) := by
        intro hc
        have : r.status = 404 := by simpa using hc
        rw [this] at hr
        simp [retryStatusTuple] at hr
      simp [requestLoop, h429, h4, h404, hr, hf]
    · rw [if_neg h4] at hr
      have hcode : ¬ (r.code == 0) := by
        intro hc
        have : r.code = 0 := by simpa using hc
        rw [this] at hr
        simp [isRetryCode] at hr
      simp [requestLoop, h429, h4, hcode, hr, hf]

/-- C5 (amended): any three retryable responses on the first three attempts
make the request layer wait 1, then 2, then 4 seconds (each wait
`min backoff 60`, the backoff doubling) before the fourth attempt, whatever
the remaining responses; and a request all five of whose attempts receive
HTTP 429 sleeps 1, 2, 4, 8, 16 and raises the retry-exhausted error.  (Only
the 429 branch reaches the retry-exhausted message: a retryable 5xx or
retryable API code arriving on the fifth attempt raises its own HTTP or API
error instead — see the counterexample.) -/
theorem c5_amended :
    (∀ (r1 r2 r3 : HttpResp) (rest : List HttpResp),
      isRetryableResp r1 = true → isRetryableResp r2 = true →
      isRetryableResp r3 = true →
      (runRequest (r1 :: r2 :: r3 :: rest)).2.take 3 = [1, 2, 4])
    ∧ runRequest (List.replicate 5 ⟨429, 0⟩) =
        (.retryExhausted, [1, 2, 4, 8, 16]) := by
  constructor
  · intro r1 r2 r3 rest hr1 hr2 hr3
    show (requestLoop 5 (r1 :: r2 :: r3 :: rest) 1).2.take 3 = [1, 2, 4]
    rw [show (5 : Nat) = 4 + 1 from rfl,
      requestLoop_retry_step 4 r1 _ 1 hr1 (by decide)]
    rw [show (4 : Nat) = 3 + 1 from rfl,
      requestLoop_retry_step 3 r2 _ _ hr2 (by decide)]
    rw [show (3 : Nat) = 2 + 1 from rfl,
      requestLoop_retry_step 2 r3 _ _ hr3 (by decide)]
    rfl
  · decide

/-- Witness for `c5_amended`: three 429 responses followed by a success. -/
theorem c5_amended_witness :
    (runRequest [⟨429, 0⟩, ⟨429, 0⟩, ⟨429, 0⟩, ⟨200, 0⟩]).2.take 3 =
      [1, 2, 4] :=
  c5_amended.1 ⟨429, 0⟩ ⟨429, 0⟩ ⟨429, 0⟩ [⟨200, 0⟩] (by decide) (by decide)
    (by decide)

/-- C5 (counterexample): five consecutive HTTP 503 responses — retryable
server errors — end in the generic HTTP-error exception on the fifth attempt
(after sleeping 1, 2, 4, 8), not in the retry-exhausted error the claim
names for every retryable sequence. -/
theorem c5_counterexample :
    runRequest (List.replicate 5 ⟨503, 0⟩) = (.httpError 503, [1, 2, 4, 8])
    ∧ (ReqResult.httpError 503 ≠ .retryExhausted)
    ∧ isRetryableResp ⟨503, 0⟩ = true := by
  refine ⟨by decide, by decide, by decide⟩

/-! ## C6: pagination completeness -/

/-- C6: when every page but the last signals more pages and carries a truthy
continuation token, and the last page does not, the page loop returns the
concatenation of all pages' item lists in page order and fetches exactly the
given pages. -/
theorem c6_pagination {α : Type} (pages : List (Page α))
    (h1 : ∀ p ∈ pages.dropLast, pageContinues p = true)
    (h2 : ∀ p, pages.getLast? = some p → pageContinues p = false) :
    paginateLoop pages =
      ((pages.map (fun p => p.items.getD [])).flatten, pages.length) := by
  induction pages with
  | nil => simp [paginateLoop]
  | cons p rest ih =>
    cases rest with
    | nil =>
      have hp : pageContinues p = false := h2 p rfl
      simp only [pageContinues, Bool.and_eq_false_iff] at hp
      unfold paginateLoop
      rcases hp with hp | hp
      · simp [hp]
      · cases htok : p.pageToken with
        | none => by_cases hm : p.hasMore <;> simp [hm, htok]
        | some tok =>
          rw [htok] at hp
          have : tok = "" := by simpa [optTruthy] using hp
          subst this
          by_cases hm : p.hasMore <;> simp [hm, htok]
    | cons q rest2 =>
      have hp : pageContinues p = true := by
        refine h1 p ?_
        rw [List.dropLast_cons_of_ne_nil (by simp)]
        exact List.mem_cons_self _ _
      simp only [pageContinues, Bool.and_eq_true] at hp
      obtain ⟨hm, htk⟩ := hp
      cases htok : p.pageToken with
      | none => rw [htok] at htk; simp [optTruthy] at htk
      | some tok =>
        rw [htok] at htk
        have htok2 : ¬ (tok = "") := by simpa [optTruthy] using htk
        have ih2 := ih
          (fun x hx => h1 x (by
            rw [List.dropLast_cons_of_ne_nil (by simp)]
            exact List.mem_cons_of_mem _ hx))
          (fun x hx => h2 x (by rwa [List.getLast?_cons_cons]))
        unfold paginateLoop
        rw [if_pos hm, htok]
        simp only [htok2, if_true, Bool.not_eq_true]
        simp [ih2]
        exact htok2

/-- Witness for `c6_pagination`: three pages, the first two continuing. -/
theorem c6_pagination_witness :
    paginateLoop
      [⟨some [1, 2], true, some "t1"⟩, ⟨some [3], true, some "t2"⟩,
       ⟨some [4, 5], false, none⟩] = ([1, 2, 3, 4, 5], 3) :=
  (c6_pagination
    [⟨some [1, 2], true, some "t1"⟩, ⟨some [3], true, some "t2"⟩,
     ⟨some [4, 5], false, none⟩]
    (by intro p hp; simp [List.dropLast] at hp; rcases hp with rfl | rfl <;> rfl)
    (by intro p hp; simp at hp; subst hp; rfl)).trans (by rfl)

/-! ## C2: idempotence of a second run -/

/-- The C2 counterexample scenario (same shape as the C1 one, but exercised
through two full runs): a relation-multi column `M` whose source value differs
from the remote value. -/
def c2Frozen : Dict :=
  [("企业ID", .vstr "E1"), ("数据集", .vstr "D"), ("会计期间", .vstr "2024Q1"),
   ("报表类型", .vstr "R")]

def c2Row : Dict := [("M", .vstr "a")]

def c2Input : RunInput :=
  { frozenRows := [c2Frozen]
    dataRows := [c2Row]
    schema := [⟨"M", 1, some ⟨some "T1", true, none, none⟩⟩]
    linkTables := [] }

def c2State : RemoteState :=
  ⟨[⟨"rec1", [("数据ID", .vstr "E1_D2024Q1R"), ("M", .vstr "b")]⟩]⟩

/-- C2 (counterexample): the claim as stated is false — with the relation-multi
column `M` mismatching, the first run updates the record but the write payload
drops `M`, so the remote value survives and the second run (against the remote
state produced by the first, with no external changes) again reports
`updated = 1`, not 0. -/
theorem c2_counterexample :
    (flushRun (fun _ => none) c2Input c2State).1.updated = 1
    ∧ (flushRun (fun _ => none) c2Input
        ((flushRun (fun _ => none) c2Input c2State).2)).1.updated = 1
    ∧ (flushRun (fun _ => none) c2Input
        ((flushRun (fun _ => none) c2Input c2State).2)).1.updated ≠ 0 := by
  exact ⟨rfl, rfl, by decide⟩

/-! ### Key-uniqueness bookkeeping for the amended idempotence proof -/

theorem aget_some_mem {α : Type} (m : List (String × α)) (k : String) (v : α)
    (h : aget m k = some v) : (k, v) ∈ m := by
  induction m with
  | nil => cases h
  | cons p rest ih =>
    obtain ⟨a, b⟩ := p
    simp only [aget] at h
    by_cases hq : a = k
    · subst hq
      rw [if_pos (by simp)] at h
      cases h
      exact List.mem_cons_self _ _
    · rw [if_neg (by simpa using hq)] at h
      exact List.mem_cons_of_mem _ (ih h)

theorem aget_of_mem_nodup {α : Type} (m : List (String × α))
    (hnd : (m.map Prod.fst).Nodup) (k : String) (v : α) (h : (k, v) ∈ m) :
    aget m k = some v := by
  induction m with
  | nil => cases h
  | cons p rest ih =>
    simp only [List.map_cons, List.nodup_cons] at hnd
    rcases List.mem_cons.mp h with rfl | h2
    · simp [aget]
    · have hne : p.1 ≠ k := by
        intro he
        exact hnd.1 (he ▸ (List.mem_map_of_mem Prod.fst h2))
      have hne2 : (p.1 == k) = false := by simpa using hne
      show (if (p.1 == k) = true then some p.2 else aget rest k) = some v
      rw [hne2]
      simpa using ih hnd.2 h2

/-- Inserting an already-present key leaves the key list unchanged. -/
theorem keys_ainsert_mem {α : Type} (m : List (String × α)) (k : String)
    (v : α) (h : amem m k = true) :
    (ainsert m k v).map Prod.fst = m.map Prod.fst := by
  induction m with
  | nil => simp [amem, aget] at h
  | cons p rest ih =>
    by_cases hq : p.1 = k
    · simp [ainsert, hq]
    · have h2 : amem rest k = true := by
        simpa [amem, aget, hq] using h
      simp [ainsert, hq, ih h2]

/-- Inserting a fresh key appends it. -/
theorem keys_ainsert_not_mem {α : Type} (m : List (String × α)) (k : String)
    (v : α) (h : amem m k = false) :
    (ainsert m k v).map Prod.fst = m.map Prod.fst ++ [k] := by
  induction m with
  | nil => simp [ainsert]
  | cons p rest ih =>
    by_cases hq : p.1 = k
    · rw [← hq] at h
      rw [amem_eq_false_iff] at h
      simp [aget] at h
    · have h2 : amem rest k = false := by
        simpa [amem, aget, hq] using h
      simp [ainsert, hq, ih h2]

theorem nodup_keys_ainsert {α : Type} (m : List (String × α)) (k : String)
    (v : α) (h : (m.map Prod.fst).Nodup) :
    ((ainsert m k v).map Prod.fst).Nodup := by
  cases hm : amem m k with
  | true => rw [keys_ainsert_mem m k v hm]; exact h
  | false =>
    rw [keys_ainsert_not_mem m k v hm]
    rw [List.nodup_append]
    refine ⟨h, List.nodup_singleton k, ?_⟩
    intro x hx
    simp only [List.mem_singleton]
    intro he
    subst he
    obtain ⟨p, hp, hpk⟩ := List.mem_map.mp hx
    rw [← hpk] at hm
    rw [amem_of_mem m p hp] at hm
    cases hm

theorem nodup_keys_updateD {α : Type} (d e : List (String × α))
    (h : (d.map Prod.fst).Nodup) : ((updateD d e).map Prod.fst).Nodup := by
  induction e generalizing d with
  | nil => exact h
  | cons p rest ih =>
    exact ih (ainsert d p.1 p.2) (nodup_keys_ainsert d p.1 p.2 h)

theorem nodup_keys_filter {α : Type} (m : List (String × α)) (q : String × α → Bool)
    (h : (m.map Prod.fst).Nodup) : ((m.filter q).map Prod.fst).Nodup :=
  List.Nodup.sublist (List.Sublist.map Prod.fst (List.filter_sublist m)) h

theorem keys_coerceStep (fc : Value → Option Value) (d : Dict)
    (p : String × BField) :
    (coerceStep fc d p).map Prod.fst = d.map Prod.fst := by
  unfold coerceStep
  by_cases hc : (p.2.ftype == (2 : Int) && amem d p.1) = true
  · rw [if_pos hc]
    by_cases hv : (!(isNoneOrEmptyStr (dgetV d p.1))) = true
    · rw [if_pos hv]
      cases hfc : fc (dgetV d p.1) with
      | none => rfl
      | some w =>
        exact keys_ainsert_mem d p.1 w (Bool.and_eq_true _ _ |>.mp hc).2
    · rw [if_neg hv]
  · rw [if_neg hc]

theorem keys_coerceNumeric (fc : Value → Option Value)
    (fieldMap : List (String × BField)) (d : Dict) :
    (coerceNumeric fc fieldMap d).map Prod.fst = d.map Prod.fst := by
  induction fieldMap generalizing d with
  | nil => rfl
  | cons p rest ih =>
    show (coerceNumeric fc rest (coerceStep fc d p)).map Prod.fst = _
    rw [ih, keys_coerceStep]

/-- The merged row dictionary has unique keys. -/
theorem nodup_keys_mergedFields (frozenData dataRow : Dict) (dataId : String) :
    ((mergedFields frozenData dataRow dataId).map Prod.fst).Nodup :=
  nodup_keys_ainsert _ _ _
    (nodup_keys_updateD _ dataRow (nodup_keys_updateD _ frozenData List.nodup_nil))

/-- The primary write payload has unique keys. -/
theorem nodup_keys_rowPayload (fc : Value → Option Value) (ctx : RowCtx)
    (frozenData dataRow : Dict) (dataId : String) :
    ((rowPayload fc ctx (mergedFields frozenData dataRow dataId)).map
      Prod.fst).Nodup := by
  show (((coerceNumeric fc ctx.fieldMap
    ((mergedFields frozenData dataRow dataId).filter
      (fun p => !(ctx.special.contains p.1)))).filter
      (fun p => !(amem ctx.singleLink p.1))).map Prod.fst).Nodup
  apply nodup_keys_filter
  rw [keys_coerceNumeric]
  exact nodup_keys_filter _ _ (nodup_keys_mergedFields frozenData dataRow dataId)

/-! ### `find?` helpers -/

theorem find?_append_cases {α : Type} (l1 l2 : List α) (p : α → Bool) :
    (l1 ++ l2).find? p =
      match l1.find? p with
      | some a => some a
      | none => l2.find? p := by
  induction l1 with
  | nil => rfl
  | cons x xs ih =>
    by_cases hx : p x = true
    · simp [List.find?_cons, hx]
    · have hx2 : p x = false := by simpa using hx
      simp [List.find?_cons, hx2, ih]

theorem find?_eq_some_decomp {α : Type} (l : List α) (p : α → Bool) (a : α)
    (h : l.find? p = some a) :
    p a = true ∧ ∃ l1 l2, l = l1 ++ a :: l2 ∧ ∀ x ∈ l1, p x = false := by
  induction l with
  | nil => cases h
  | cons x xs ih =>
    by_cases hx : p x = true
    · rw [List.find?_cons_of_pos _ hx] at h
      cases h
      exact ⟨hx, [], xs, rfl, by intro x hx2; cases hx2⟩
    · have hx2 : p x = false := by simpa using hx
      rw [List.find?_cons_of_neg _ (by simp [hx2])] at h
      obtain ⟨hpa, l1, l2, hdec, hall⟩ := ih h
      refine ⟨hpa, x :: l1, l2, by rw [hdec]; rfl, ?_⟩
      intro y hy
      rcases List.mem_cons.mp hy with rfl | hy2
      · exact hx2
      · exact hall y hy2

theorem find?_of_unique_match {α : Type} (l : List α) (p : α → Bool) (a : α)
    (ha : a ∈ l) (hpa : p a = true)
    (huniq : ∀ y ∈ l, p y = true → y = a) :
    l.find? p = some a := by
  induction l with
  | nil => cases ha
  | cons x xs ih =>
    by_cases hx : p x = true
    · rw [List.find?_cons_of_pos _ hx]
      rw [huniq x (List.mem_cons_self x xs) hx]
    · rw [List.find?_cons_of_neg _ (by simpa using hx)]
      rcases List.mem_cons.mp ha with rfl | ha2
      · exact absurd hpa hx
      · exact ih ha2 (fun y hy hpy => huniq y (List.mem_cons_of_mem x hy) hpy)

/-! ### The identity map as a last-match search -/

/-- Whether a record would be stored at key `k` of the identity map. -/
def matchesKey (k : String) (r : Record) : Bool :=
  truthy (dgetV r.rfields "数据ID") && (toStr (dgetV r.rfields "数据ID") == k)

theorem recordMapFold_eq (l : List Record) (m : List (String × Record))
    (k : String) :
    aget (l.foldl
      (fun m r =>
        if truthy (dgetV r.rfields "数据ID") then
          ainsert m (toStr (dgetV r.rfields "数据ID")) r
        else m) m) k =
      match l.reverse.find? (matchesKey k) with
      | some r => some r
      | none => aget m k := by
  induction l generalizing m with
  | nil => simp
  | cons r rest ih =>
    simp only [List.foldl_cons, List.reverse_cons]
    rw [ih, find?_append_cases]
    cases hfind : rest.reverse.find? (matchesKey k) with
    | some a => rfl
    | none =>
      simp only [List.find?_singleton]
      by_cases hm : matchesKey k r = true
      · have ht : truthy (dgetV r.rfields "数据ID") = true :=
          (Bool.and_eq_true _ _ |>.mp hm).1
        have hk : toStr (dgetV r.rfields "数据ID") = k := by
          have := (Bool.and_eq_true _ _ |>.mp hm).2
          simpa using this
        rw [hm, if_pos ht, aget_ainsert, hk, if_pos rfl]
        rfl
      · have hm2 : matchesKey k r = false := by simpa using hm
        rw [hm2]
        by_cases ht : truthy (dgetV r.rfields "数据ID") = true
        · have hk : ¬ (toStr (dgetV r.rfields "数据ID") = k) := by
            intro he
            rw [matchesKey, ht, he] at hm2
            simp at hm2
          rw [if_pos ht, aget_ainsert, if_neg hk]
          rfl
        · rw [if_neg ht]
          rfl

/-- The identity map returns the last stored record matching the key. -/
theorem aget_buildRecordMap (l : List Record) (k : String) :
    aget (buildRecordMap l) k = l.reverse.find? (matchesKey k) := by
  rw [buildRecordMap, recordMapFold_eq]
  cases l.reverse.find? (matchesKey k) <;> rfl

/-! ### Freshness of created record ids -/

theorem concatIds_length (ids : List String) :
    (concatIds ids).length = 1 + (ids.map String.length).sum := by
  have H : ∀ (init : String),
      (ids.foldl (fun a b => a ++ b) init).length =
        init.length + (ids.map String.length).sum := by
    induction ids with
    | nil => intro init; simp
    | cons x xs ih =>
      intro init
      simp only [List.foldl_cons, List.map_cons, List.sum_cons, ih,
        String.length_append]
      omega
  exact H "r"

theorem length_lt_concatIds (ids : List String) (x : String) (hx : x ∈ ids) :
    x.length < (concatIds ids).length := by
  rw [concatIds_length]
  have : x.length ≤ (ids.map String.length).sum :=
    List.single_le_sum (by intro y hy; omega) _ (List.mem_map_of_mem _ hx)
  omega

/-- Every record a batch create brings into being has an id strictly longer
than every id in scope when the batch started. -/
theorem mkCreated_id_longer (pl : List Dict) :
    ∀ (ids : List String) (r : Record), r ∈ mkCreated ids pl →
      ∀ x ∈ ids, x.length < r.recordId.length := by
  induction pl with
  | nil => intro ids r hr; cases hr
  | cons p rest ih =>
    intro ids r hr x hx
    rcases List.mem_cons.mp hr with rfl | hr2
    · exact length_lt_concatIds ids x hx
    · exact ih (ids ++ [concatIds ids]) r hr2 x (List.mem_append_left _ hx)

theorem mkCreated_id_not_mem (pl : List Dict) (ids : List String) (r : Record)
    (hr : r ∈ mkCreated ids pl) : r.recordId ∉ ids := by
  intro hmem
  exact absurd rfl
    (Nat.ne_of_lt (mkCreated_id_longer pl ids r hr r.recordId hmem) ∘
      congrArg String.length)

/-- The created records carry exactly the given payloads, in order. -/
theorem mkCreated_fields (pl : List Dict) :
    ∀ ids, (mkCreated ids pl).map Record.rfields = pl := by
  induction pl with
  | nil => intro ids; rfl
  | cons p rest ih => intro ids; simp [mkCreated, ih]

theorem mkCreated_length (pl : List Dict) :
    ∀ ids, (mkCreated ids pl).length = pl.length := by
  induction pl with
  | nil => intro ids; rfl
  | cons p rest ih => intro ids; simp [mkCreated, ih]

/-- Splitting a batch in two, with the id pool advanced in between. -/
theorem mkCreated_append (a b : List Dict) :
    ∀ ids, mkCreated ids (a ++ b) =
      mkCreated ids a ++
        mkCreated (ids ++ (mkCreated ids a).map Record.recordId) b := by
  induction a with
  | nil => intro ids; simp [mkCreated]
  | cons p rest ih =>
    intro ids
    show Record.mk (concatIds ids) p ::
        mkCreated (ids ++ [concatIds ids]) (rest ++ b) = _
    rw [ih (ids ++ [concatIds ids])]
    simp [mkCreated, List.append_assoc]

/-! ### The comparison view: erasing single-link patches -/

/-- Two records that agree on id and on every field outside the single-link
names — everything the second run's identity lookup and diff can observe. -/
def sameView (sl : List (String × Option String)) (r s : Record) : Prop :=
  r.recordId = s.recordId ∧
    ∀ k, amem sl k = false → aget r.rfields k = aget s.rfields k

/-- Pointwise `sameView` over two record lists. -/
def viewEq (sl : List (String × Option String)) (a b : List Record) : Prop :=
  List.Forall₂ (sameView sl) a b

theorem sameView_refl (sl : List (String × Option String)) (r : Record) :
    sameView sl r r :=
  ⟨rfl, fun _ _ => rfl⟩

theorem viewEq_refl (sl : List (String × Option String)) (a : List Record) :
    viewEq sl a a :=
  List.forall₂_same.mpr (fun r _ => sameView_refl sl r)

theorem viewEq_append (sl : List (String × Option String))
    {a b c d : List Record} (h1 : viewEq sl a b) (h2 : viewEq sl c d) :
    viewEq sl (a ++ c) (b ++ d) :=
  List.rel_append h1 h2

theorem viewEq_ids (sl : List (String × Option String)) {a b : List Record}
    (h : viewEq sl a b) : a.map Record.recordId = b.map Record.recordId := by
  induction h with
  | nil => rfl
  | cons hr _ ih => simp [hr.1, ih]

theorem mergeFn_recordId (rid : String) (payload : Dict) (r : Record) :
    (mergeFn rid payload r).recordId = r.recordId := by
  unfold mergeFn
  by_cases h : r.recordId == rid
  · rw [if_pos h]
  · rw [if_neg h]

theorem mergeFn_of_ne (rid : String) (payload : Dict) (r : Record)
    (h : r.recordId ≠ rid) : mergeFn rid payload r = r := by
  unfold mergeFn
  rw [if_neg (by simpa using h)]

/-- Merging the same unique-keyed payload into view-equal records keeps them
view-equal. -/
theorem sameView_mergeFn (sl : List (String × Option String)) (rid : String)
    (payload : Dict) (hp : (payload.map Prod.fst).Nodup) (r s : Record)
    (h : sameView sl r s) :
    sameView sl (mergeFn rid payload r) (mergeFn rid payload s) := by
  obtain ⟨hid, hf⟩ := h
  unfold mergeFn
  rw [hid]
  by_cases hc : s.recordId == rid
  · rw [if_pos hc, if_pos hc]
    refine ⟨rfl, fun k hk => ?_⟩
    show aget (updateD r.rfields payload) k = aget (updateD s.rfields payload) k
    rw [aget_updateD_nodup _ _ _ hp, aget_updateD_nodup _ _ _ hp, hf k hk]
  · rw [if_neg hc, if_neg hc]
    exact ⟨hid, hf⟩

/-- A single-link patch on the left side is invisible to the view. -/
theorem sameView_patchL (sl : List (String × Option String)) (rid f : String)
    (v : Value) (hf : amem sl f = true) (r s : Record) (h : sameView sl r s) :
    sameView sl (mergeFn rid [(f, v)] r) s := by
  obtain ⟨hid, hvw⟩ := h
  unfold mergeFn
  by_cases hc : r.recordId == rid
  · rw [if_pos hc]
    refine ⟨hid, fun k hk => ?_⟩
    have hkf : f ≠ k := by
      intro he
      rw [he] at hf
      rw [hf] at hk
      cases hk
    show aget (updateD r.rfields [(f, v)]) k = _
    rw [show updateD r.rfields [(f, v)] = ainsert r.rfields f v from rfl,
      aget_ainsert, if_neg hkf]
    exact hvw k hk
  · rw [if_neg hc]
    exact ⟨hid, hvw⟩

theorem viewEq_map_both (sl : List (String × Option String))
    {a b : List Record} (h : viewEq sl a b) (f g : Record → Record)
    (hfg : ∀ r s, sameView sl r s → sameView sl (f r) (g s)) :
    viewEq sl (a.map f) (b.map g) := by
  induction h with
  | nil => exact List.Forall₂.nil
  | cons hr hrest ih => exact List.Forall₂.cons (hfg _ _ hr) ih

theorem viewEq_map_left (sl : List (String × Option String))
    {a b : List Record} (h : viewEq sl a b) (f : Record → Record)
    (hf : ∀ r s, sameView sl r s → sameView sl (f r) s) :
    viewEq sl (a.map f) b := by
  induction h with
  | nil => exact List.Forall₂.nil
  | cons hr hrest ih => exact List.Forall₂.cons (hf _ _ hr) ih

/-- `updateOne` with a unique-keyed payload respects the view relation. -/
theorem viewEq_updateOne (sl : List (String × Option String)) (rid : String)
    (payload : Dict) (hp : (payload.map Prod.fst).Nodup)
    {a b : List Record} (h : viewEq sl a b) :
    viewEq sl (a.map (mergeFn rid payload)) (b.map (mergeFn rid payload)) :=
  viewEq_map_both sl h _ _ (sameView_mergeFn sl rid payload hp)

/-- A left-side single-link patch respects the view relation. -/
theorem viewEq_patchL (sl : List (String × Option String)) (rid f : String)
    (v : Value) (hf : amem sl f = true) {a b : List Record}
    (h : viewEq sl a b) :
    viewEq sl (a.map (mergeFn rid [(f, v)])) b :=
  viewEq_map_left sl h _ (sameView_patchL sl rid f v hf)

/-- A whole run of link patches on the left respects the view relation. -/
theorem viewEq_applyLinkPatches (sl : List (String × Option String))
    (links : List (String × String)) (rid : String)
    (hl : ∀ q ∈ links, amem sl q.1 = true) :
    ∀ (stA : RemoteState) (b : List Record), viewEq sl stA.records b →
      viewEq sl (applyLinkPatches stA rid links).records b := by
  induction links with
  | nil => intro stA b h; exact h
  | cons q rest ih =>
    intro stA b h
    show viewEq sl
      (rest.foldl (fun s p => updateOne s rid [(p.1, .vlist [.vstr p.2])])
        (updateOne stA rid [(q.1, .vlist [.vstr q.2])])).records b
    refine ih (fun x hx => hl x (List.mem_cons_of_mem q hx)) _ b ?_
    exact viewEq_patchL sl rid q.1 (.vlist [.vstr q.2])
      (hl q (List.mem_cons_self q rest)) h

/-! ### The write phase, patches erased -/

/-- All primary merges a run's update phase applies to one record. -/
def mergeAll (us : List UpdateIns) (r : Record) : Record :=
  us.foldl (fun r u => mergeFn u.1 u.2.1 r) r

theorem mergeAll_append (a b : List UpdateIns) (r : Record) :
    mergeAll (a ++ b) r = mergeAll b (mergeAll a r) := by
  simp [mergeAll, List.foldl_append]

theorem mergeAll_recordId (us : List UpdateIns) :
    ∀ r : Record, (mergeAll us r).recordId = r.recordId := by
  induction us with
  | nil => intro r; rfl
  | cons u rest ih =>
    intro r
    show (mergeAll rest (mergeFn u.1 u.2.1 r)).recordId = _
    rw [ih, mergeFn_recordId]

theorem mergeAll_of_ne (us : List UpdateIns) :
    ∀ r : Record, (∀ u ∈ us, u.1 ≠ r.recordId) → mergeAll us r = r := by
  induction us with
  | nil => intro r _; rfl
  | cons u rest ih =>
    intro r h
    show mergeAll rest (mergeFn u.1 u.2.1 r) = r
    rw [mergeFn_of_ne _ _ _
      (fun he => h u (List.mem_cons_self u rest) he.symm)]
    exact ih r (fun x hx => h x (List.mem_cons_of_mem u hx))

/-- A fold of primary merges over a state is a map of the per-record merge
chain. -/
theorem foldl_updateOne_eq_map (c : List UpdateIns) :
    ∀ recs : List Record,
      c.foldl (fun s u => updateOne s u.1 u.2.1) ⟨recs⟩ =
        ⟨recs.map (mergeAll c)⟩ := by
  induction c with
  | nil =>
    intro recs
    show RemoteState.mk recs = _
    congr 1
    exact (List.map_id recs).symm
  | cons u c' ih =>
    intro recs
    show c'.foldl _ (updateOne ⟨recs⟩ u.1 u.2.1) = _
    rw [show updateOne ⟨recs⟩ u.1 u.2.1 =
      RemoteState.mk (recs.map (mergeFn u.1 u.2.1)) from rfl, ih]
    congr 1
    rw [List.map_map]
    rfl

/-- The patch loop of a create chunk respects the view relation. -/
theorem viewEq_createPatchFold (sl : List (String × Option String))
    (pairs : List (List (String × String) × Record))
    (hp : ∀ pr ∈ pairs, ∀ q ∈ pr.1, amem sl q.1 = true) :
    ∀ (stA : RemoteState) (b : List Record), viewEq sl stA.records b →
      viewEq sl
        (pairs.foldl (fun s p => applyLinkPatches s p.2.recordId p.1)
          stA).records b := by
  induction pairs with
  | nil => intro stA b h; exact h
  | cons pr rest ih =>
    intro stA b h
    show viewEq sl (rest.foldl _
      (applyLinkPatches stA pr.2.recordId pr.1)).records b
    refine ih (fun x hx => hp x (List.mem_cons_of_mem pr hx)) _ b ?_
    exact viewEq_applyLinkPatches sl pr.1 pr.2.recordId
      (hp pr (List.mem_cons_self pr rest)) stA b h

/-- The patch loop of an update chunk respects the view relation. -/
theorem viewEq_updatePatchFold (sl : List (String × Option String))
    (chunk : List UpdateIns)
    (hp : ∀ u ∈ chunk, ∀ q ∈ u.2.2.1, amem sl q.1 = true) :
    ∀ (stA : RemoteState) (b : List Record), viewEq sl stA.records b →
      viewEq sl
        (chunk.foldl (fun s u => applyLinkPatches s u.1 u.2.2.1) stA).records
        b := by
  induction chunk with
  | nil => intro stA b h; exact h
  | cons u rest ih =>
    intro stA b h
    show viewEq sl (rest.foldl _ (applyLinkPatches stA u.1 u.2.2.1)).records b
    refine ih (fun x hx => hp x (List.mem_cons_of_mem u hx)) _ b ?_
    exact viewEq_applyLinkPatches sl u.2.2.1 u.1
      (hp u (List.mem_cons_self u rest)) stA b h

/-- The merge half of an update chunk respects the view relation, with the
right side expressed as a per-record merge map. -/
theorem viewEq_mergeFold (sl : List (String × Option String))
    (c : List UpdateIns) (hnd : ∀ u ∈ c, (u.2.1.map Prod.fst).Nodup) :
    ∀ (stA : RemoteState) (b : List Record), viewEq sl stA.records b →
      viewEq sl (c.foldl (fun s u => updateOne s u.1 u.2.1) stA).records
        (b.map (mergeAll c)) := by
  induction c with
  | nil =>
    intro stA b h
    have : b.map (mergeAll []) = b := List.map_id b
    rwa [this]
  | cons u c' ih =>
    intro stA b h
    show viewEq sl (c'.foldl _ (updateOne stA u.1 u.2.1)).records _
    have hstep : viewEq sl (updateOne stA u.1 u.2.1).records
        (b.map (mergeFn u.1 u.2.1)) :=
      viewEq_updateOne sl u.1 u.2.1 (hnd u (List.mem_cons_self u c')) h
    have := ih (fun x hx => hnd x (List.mem_cons_of_mem u hx)) _ _ hstep
    rw [List.map_map] at this
    exact this

/-- The create phase, viewed: appending the plainly-created records. -/
theorem viewEq_createChunks (sl : List (String × Option String)) :
    ∀ (cl : List (List CreateIns)),
      (∀ c ∈ cl, ∀ ins ∈ c, ∀ q ∈ ins.2.1, amem sl q.1 = true) →
      ∀ (stA : RemoteState) (b : List Record), viewEq sl stA.records b →
      viewEq sl (cl.foldl applyCreateChunk stA).records
        (b ++ mkCreated (b.map Record.recordId) (cl.flatten.map (·.1))) := by
  intro cl
  induction cl with
  | nil =>
    intro _ stA b h
    simpa [mkCreated] using h
  | cons c cl' ih =>
    intro hl stA b h
    show viewEq sl (cl'.foldl applyCreateChunk (applyCreateChunk stA c)).records _
    have hids : stateIds stA = b.map Record.recordId := viewEq_ids sl h
    have hstep : viewEq sl (applyCreateChunk stA c).records
        (b ++ mkCreated (b.map Record.recordId) (c.map (·.1))) := by
      unfold applyCreateChunk batchCreate
      refine viewEq_createPatchFold sl _ ?_ _ _ ?_
      · intro pr hpr q hq
        have hmem := (List.of_mem_zip hpr).1
        obtain ⟨ins, hins, hpr1⟩ := List.mem_map.mp hmem
        exact hl c (List.mem_cons_self c cl') ins hins q (hpr1 ▸ hq)
      · show viewEq sl (stA.records ++ mkCreated (stateIds stA) (c.map (·.1))) _
        rw [hids]
        exact viewEq_append sl h (viewEq_refl sl _)
    have hrec := ih (fun x hx => hl x (List.mem_cons_of_mem c hx)) _ _ hstep
    rw [List.flatten_cons, List.map_append, mkCreated_append,
      ← List.append_assoc]
    have hmapids : (b ++ mkCreated (b.map Record.recordId) (c.map (·.1))).map
        Record.recordId =
      b.map Record.recordId ++
        (mkCreated (b.map Record.recordId) (c.map (·.1))).map Record.recordId :=
      List.map_append _ _ _
    rw [← hmapids]
    exact hrec

/-- The update phase, viewed: mapping the per-record merge chain. -/
theorem viewEq_updateChunks (sl : List (String × Option String)) :
    ∀ (cl : List (List UpdateIns)),
      (∀ c ∈ cl, ∀ u ∈ c, ∀ q ∈ u.2.2.1, amem sl q.1 = true) →
      (∀ c ∈ cl, ∀ u ∈ c, (u.2.1.map Prod.fst).Nodup) →
      ∀ (stA : RemoteState) (b : List Record), viewEq sl stA.records b →
      viewEq sl (cl.foldl applyUpdateChunk stA).records
        (b.map (mergeAll cl.flatten)) := by
  intro cl
  induction cl with
  | nil =>
    intro _ _ stA b h
    have h2 : b.map (mergeAll []) = b := List.map_id b
    show viewEq sl stA.records (b.map (mergeAll List.nil.flatten))
    rw [List.flatten_nil, h2]
    exact h
  | cons c cl' ih =>
    intro hl hnd stA b h
    show viewEq sl (cl'.foldl applyUpdateChunk (applyUpdateChunk stA c)).records _
    have hstep : viewEq sl (applyUpdateChunk stA c).records
        (b.map (mergeAll c)) := by
      unfold applyUpdateChunk
      refine viewEq_updatePatchFold sl c
        (hl c (List.mem_cons_self c cl')) _ _ ?_
      exact viewEq_mergeFold sl c (hnd c (List.mem_cons_self c cl')) stA b h
    have hrec := ih (fun x hx => hl x (List.mem_cons_of_mem c hx))
      (fun x hx => hnd x (List.mem_cons_of_mem c hx)) _ _ hstep
    rw [List.map_map] at hrec
    rw [List.flatten_cons]
    have : mergeAll (c ++ cl'.flatten) = mergeAll cl'.flatten ∘ mergeAll c := by
      funext r
      exact mergeAll_append c cl'.flatten r
    rw [this]
    exact hrec

/-! ### What the classifier's actions carry -/

theorem mem_ainsert {α : Type} (m : List (String × α)) (k : String) (v : α)
    (q : String × α) (h : q ∈ ainsert m k v) : q = (k, v) ∨ q ∈ m := by
  induction m with
  | nil => simpa [ainsert] using h
  | cons p rest ih =>
    by_cases hp : p.1 = k
    · rw [ainsert, if_pos (by simpa using hp)] at h
      rcases List.mem_cons.mp h with rfl | h2
      · exact Or.inl rfl
      · exact Or.inr (List.mem_cons_of_mem p h2)
    · rw [ainsert, if_neg (by simpa using hp)] at h
      rcases List.mem_cons.mp h with rfl | h2
      · exact Or.inr (List.mem_cons_self _ _)
      · rcases ih h2 with h3 | h3
        · exact Or.inl h3
        · exact Or.inr (List.mem_cons_of_mem p h3)

/-- Every pending relation write names a single-link field. -/
theorem linkFieldValues_keys (singleLink : List (String × Option String))
    (linkCache : List (String × List (String × String))) (merged : Dict) :
    ∀ q ∈ linkFieldValues singleLink linkCache merged,
      amem singleLink q.1 = true := by
  have H : ∀ (l : List (String × Option String))
      (acc : List (String × String)),
      (∀ q ∈ acc, amem singleLink q.1 = true) →
      (∀ x ∈ l, amem singleLink x.1 = true) →
      ∀ q ∈ l.foldl
        (fun acc p =>
          if amem merged p.1 then
            match p.2 with
            | some tid =>
              if !(tid == "") && !(pyStr (dgetV merged p.1) == "") then
                match aget linkCache tid with
                | some tbl =>
                  match aget tbl (pyStr (dgetV merged p.1)) with
                  | some rid =>
                    if !(rid == "") then ainsert acc p.1 rid else acc
                  | none => acc
                | none => acc
              else acc
            | none => acc
          else acc) acc,
        amem singleLink q.1 = true := by
    intro l
    induction l with
    | nil => intro acc hacc _ q hq; exact hacc q hq
    | cons p rest ih =>
      intro acc hacc hl q hq
      refine ih _ ?_ (fun x hx => hl x (List.mem_cons_of_mem p hx)) q hq
      intro q' hq'
      simp only [] at hq'
      by_cases hm : amem merged p.1 = true
      · rw [if_pos hm] at hq'
        have hp : amem singleLink p.1 = true := hl p (List.mem_cons_self p rest)
        rcases hp2 : p.2 with _ | tid
        · rw [hp2] at hq'
          exact hacc q' hq'
        · rw [hp2] at hq'
          simp only [] at hq'
          by_cases hc1 : (!(tid == "") && !(pyStr (dgetV merged p.1) == "")) = true
          · rw [if_pos hc1] at hq'
            cases hc2 : aget linkCache tid with
            | none => rw [hc2] at hq'; exact hacc q' hq'
            | some tbl =>
              rw [hc2] at hq'
              simp only [] at hq'
              cases hc3 : aget tbl (pyStr (dgetV merged p.1)) with
              | none => rw [hc3] at hq'; exact hacc q' hq'
              | some rid =>
                rw [hc3] at hq'
                simp only [] at hq'
                by_cases hc4 : (!(rid == "")) = true
                · rw [if_pos hc4] at hq'
                  rcases mem_ainsert _ _ _ _ hq' with rfl | h2
                  · exact hp
                  · exact hacc q' h2
                · rw [if_neg hc4] at hq'
                  exact hacc q' hq'
          · rw [if_neg hc1] at hq'
            exact hacc q' hq'
      · rw [if_neg hm] at hq'
        exact hacc q' hq'
  intro q hq
  exact H singleLink [] (fun q' hq' => by cases hq')
    (fun x hx => amem_of_mem singleLink x hx) q hq

/-- The classification equation of `classifyRow`. -/
theorem classifyRow_eq (fc : Value → Option Value) (ctx : RowCtx)
    (frozenData dataRow : Dict) :
    classifyRow fc ctx frozenData dataRow =
      match aget ctx.recordMap (generateDataId frozenData) with
      | some R =>
        if needsUpdate ctx.singleLink
            (mergedFields frozenData dataRow (generateDataId frozenData))
            R.rfields then
          .update R.recordId
            (rowPayload fc ctx
              (mergedFields frozenData dataRow (generateDataId frozenData)))
            (linkFieldValues ctx.singleLink ctx.linkCache
              (mergedFields frozenData dataRow (generateDataId frozenData)))
            (generateDataId frozenData)
        else .unchanged
      | none =>
        .create
          (rowPayload fc ctx
            (mergedFields frozenData dataRow (generateDataId frozenData)))
          (linkFieldValues ctx.singleLink ctx.linkCache
            (mergedFields frozenData dataRow (generateDataId frozenData)))
          (generateDataId frozenData) := rfl

/-- What a harvested update instruction is made of. -/
theorem updateOf_classifyRow (fc : Value → Option Value) (ctx : RowCtx)
    (frozenData dataRow : Dict) (u : UpdateIns)
    (h : updateOf (classifyRow fc ctx frozenData dataRow) = some u) :
    ∃ R, aget ctx.recordMap (generateDataId frozenData) = some R ∧
      needsUpdate ctx.singleLink
        (mergedFields frozenData dataRow (generateDataId frozenData))
        R.rfields = true ∧
      u = (R.recordId,
        rowPayload fc ctx
          (mergedFields frozenData dataRow (generateDataId frozenData)),
        linkFieldValues ctx.singleLink ctx.linkCache
          (mergedFields frozenData dataRow (generateDataId frozenData)),
        generateDataId frozenData) := by
  rw [classifyRow_eq] at h
  cases hm : aget ctx.recordMap (generateDataId frozenData) with
  | none => rw [hm] at h; cases h
  | some R =>
    rw [hm] at h
    simp only [] at h
    by_cases hnu : needsUpdate ctx.singleLink
        (mergedFields frozenData dataRow (generateDataId frozenData))
        R.rfields = true
    · rw [if_pos hnu] at h
      simp only [updateOf] at h
      cases h
      exact ⟨R, rfl, hnu, rfl⟩
    · rw [if_neg hnu] at h
      cases h

/-- What a harvested create instruction is made of. -/
theorem createOf_classifyRow (fc : Value → Option Value) (ctx : RowCtx)
    (frozenData dataRow : Dict) (ins : CreateIns)
    (h : createOf (classifyRow fc ctx frozenData dataRow) = some ins) :
    aget ctx.recordMap (generateDataId frozenData) = none ∧
      ins = (rowPayload fc ctx
          (mergedFields frozenData dataRow (generateDataId frozenData)),
        linkFieldValues ctx.singleLink ctx.linkCache
          (mergedFields frozenData dataRow (generateDataId frozenData)),
        generateDataId frozenData) := by
  rw [classifyRow_eq] at h
  cases hm : aget ctx.recordMap (generateDataId frozenData) with
  | none =>
    rw [hm] at h
    simp only [createOf] at h
    cases h
    exact ⟨rfl, rfl⟩
  | some R =>
    rw [hm] at h
    simp only [] at h
    by_cases hnu : needsUpdate ctx.singleLink
        (mergedFields frozenData dataRow (generateDataId frozenData))
        R.rfields = true
    · rw [if_pos hnu] at h; simp only [createOf] at h; cases h
    · rw [if_neg hnu] at h; simp only [createOf] at h; cases h

/-! ### Values through the payload chain -/

theorem not_mem_of_contains_false (l : List String) (k : String)
    (h : l.contains k = false) : k ∉ l := by
  intro hm
  have h2 : l.contains k = true := List.elem_iff.mpr hm
  rw [h2] at h
  cases h

theorem toStr_of_not_truthy (v : Value) (h : truthy v = false) :
    toStr v = "" ∨ toStr v = "0" := by
  cases v with
  | vnone => exact Or.inl rfl
  | vstr s =>
    have hs : s = "" := by simpa [truthy] using h
    subst hs
    exact Or.inl rfl
  | vint n =>
    have hn : n = 0 := by simpa [truthy] using h
    subst hn
    right
    show pyStr (.vint 0) = "0"
    show pyRepr (.vint 0) = "0"
    simp only [pyRepr]
    decide
  | vlist l =>
    have hl : l = [] := by simpa [truthy, List.isEmpty_iff] using h
    subst hl
    exact Or.inl rfl

/-- A value whose string form contains the identity separator is truthy. -/
theorem truthy_of_underscore (v : Value) (h : '_' ∈ (toStr v).data) :
    truthy v = true := by
  cases ht : truthy v with
  | true => rfl
  | false =>
    rcases toStr_of_not_truthy v ht with h2 | h2 <;> rw [h2] at h
    · simp at h
    · exact absurd h (by decide)

/-- Any surviving merged binding reappears in the primary payload with the
same string form, provided the key is neither relation-multi nor single-link
and the coercion preserves string forms. -/
theorem aget_rowPayload_chain (fc : Value → Option Value)
    (hfc : ∀ v w, fc v = some w → toStr w = toStr v) (ctx : RowCtx) (d : Dict)
    (k : String) (v : Value) (hmem : aget d k = some v)
    (hsp : ctx.special.contains k = false) (hsl : amem ctx.singleLink k = false) :
    ∃ w, aget (rowPayload fc ctx d) k = some w ∧ toStr w = toStr v := by
  have h1 : aget (d.filter (fun p => !(ctx.special.contains p.1))) k = some v := by
    rw [aget_filter_key d (fun s => !(ctx.special.contains s)) k,
      if_pos (by simp [not_mem_of_contains_false _ _ hsp]), hmem]
  have h2 : Option.map toStr (aget (coerceNumeric fc ctx.fieldMap
      (d.filter (fun p => !(ctx.special.contains p.1)))) k) = some (toStr v) := by
    rw [aget_coerceNumeric_toStr fc hfc, h1]
    rfl
  obtain ⟨w, hw1, hw2⟩ := Option.map_eq_some'.mp h2
  refine ⟨w, ?_, hw2⟩
  show aget ((coerceNumeric fc ctx.fieldMap
    (d.filter (fun p => !(ctx.special.contains p.1)))).filter
    (fun p => !(amem ctx.singleLink p.1))) k = some w
  rw [aget_filter_key _ (fun s => !(amem ctx.singleLink s)) k,
    if_pos (by simp [hsl]), hw1]

/-- The merged row holds the injected identity value. -/
theorem aget_merged_dataId (frozenData dataRow : Dict) (dataId : String) :
    aget (mergedFields frozenData dataRow dataId) "数据ID" =
      some (.vstr dataId) := by
  rw [mergedFields, aget_ainsert, if_pos rfl]

/-- The payload's identity binding: present, string-form the identity key,
truthy. -/
theorem rowPayload_dataId (fc : Value → Option Value)
    (hfc : ∀ v w, fc v = some w → toStr w = toStr v) (ctx : RowCtx)
    (frozenData dataRow : Dict)
    (hsp : ctx.special.contains "数据ID" = false)
    (hsl : amem ctx.singleLink "数据ID" = false) :
    ∃ w, aget (rowPayload fc ctx
        (mergedFields frozenData dataRow (generateDataId frozenData)))
        "数据ID" = some w ∧
      toStr w = generateDataId frozenData ∧ truthy w = true := by
  obtain ⟨w, hw1, hw2⟩ := aget_rowPayload_chain fc hfc ctx
    (mergedFields frozenData dataRow (generateDataId frozenData)) "数据ID"
    (.vstr (generateDataId frozenData))
    (aget_merged_dataId frozenData dataRow (generateDataId frozenData)) hsp hsl
  have hts : toStr (Value.vstr (generateDataId frozenData)) =
      generateDataId frozenData := rfl
  rw [hts] at hw2
  refine ⟨w, hw1, hw2, ?_⟩
  apply truthy_of_underscore
  rw [hw2]
  exact generateDataId_has_underscore frozenData

/-- `matchesKey` through a known identity binding. -/
theorem matchesKey_of_aget (k : String) (r : Record) (w : Value)
    (hw : aget r.rfields "数据ID" = some w) :
    matchesKey k r = (truthy w && (toStr w == k)) := by
  simp [matchesKey, dgetV, hw]

/-- A record whose fields are the row's payload (optionally merged over
existing fields) matches exactly the row's own key. -/
theorem needsUpdate_against_merged_payload (fc : Value → Option Value)
    (hfc : ∀ v w, fc v = some w → toStr w = toStr v) (ctx : RowCtx)
    (frozenData dataRow : Dict) (ef : Dict)
    (hsp : ∀ q ∈ mergedFields frozenData dataRow (generateDataId frozenData),
      ctx.special.contains q.1 = false) :
    needsUpdate ctx.singleLink
      (mergedFields frozenData dataRow (generateDataId frozenData))
      (updateD ef (rowPayload fc ctx
        (mergedFields frozenData dataRow (generateDataId frozenData)))) =
      false := by
  apply needsUpdate_eq_false
  intro k v hkv _ hsl
  obtain ⟨w, hw1, hw2⟩ := aget_rowPayload_chain fc hfc ctx _ k v
    (aget_of_mem_nodup _ (nodup_keys_mergedFields frozenData dataRow _) k v hkv)
    (hsp (k, v) hkv) hsl
  have : aget (updateD ef (rowPayload fc ctx
      (mergedFields frozenData dataRow (generateDataId frozenData)))) k =
      some w := by
    rw [aget_updateD_nodup _ _ _ (nodup_keys_rowPayload fc ctx _ _ _), hw1]
    rfl
  rw [dgetV, this]
  exact hw2.symm

/-- Same, for a freshly created record whose fields are exactly the payload. -/
theorem needsUpdate_against_payload (fc : Value → Option Value)
    (hfc : ∀ v w, fc v = some w → toStr w = toStr v) (ctx : RowCtx)
    (frozenData dataRow : Dict)
    (hsp : ∀ q ∈ mergedFields frozenData dataRow (generateDataId frozenData),
      ctx.special.contains q.1 = false) :
    needsUpdate ctx.singleLink
      (mergedFields frozenData dataRow (generateDataId frozenData))
      (rowPayload fc ctx
        (mergedFields frozenData dataRow (generateDataId frozenData))) =
      false := by
  apply needsUpdate_eq_false
  intro k v hkv _ hsl
  obtain ⟨w, hw1, hw2⟩ := aget_rowPayload_chain fc hfc ctx _ k v
    (aget_of_mem_nodup _ (nodup_keys_mergedFields frozenData dataRow _) k v hkv)
    (hsp (k, v) hkv) hsl
  rw [dgetV, hw1]
  exact hw2.symm

/-- With pairwise-distinct targets, the merge chain hits a record through
exactly its own instruction. -/
theorem mergeAll_single (us : List UpdateIns) :
    ∀ (r : Record) (u : UpdateIns), (us.map (·.1)).Nodup → u ∈ us →
      u.1 = r.recordId →
      mergeAll us r = ⟨r.recordId, updateD r.rfields u.2.1⟩ := by
  induction us with
  | nil => intro r u _ hmem; cases hmem
  | cons v rest ih =>
    intro r u hnd hmem hid
    simp only [List.map_cons, List.nodup_cons] at hnd
    show mergeAll rest (mergeFn v.1 v.2.1 r) = _
    by_cases hv : v.1 = r.recordId
    · have huv : u = v := by
        rcases List.mem_cons.mp hmem with rfl | h2
        · rfl
        · exfalso
          apply hnd.1
          have hvu : v.1 = u.1 := hv.trans hid.symm
          rw [hvu]
          exact List.mem_map_of_mem (·.1) h2
      subst huv
      have hm : mergeFn u.1 u.2.1 r =
          ⟨r.recordId, updateD r.rfields u.2.1⟩ := by
        unfold mergeFn
        rw [if_pos (by simp [hv])]
      rw [hm]
      apply mergeAll_of_ne
      intro x hx he
      refine hnd.1 ?_
      rw [hv, ← he]
      exact List.mem_map_of_mem (·.1) hx
    · have hu2 : u ∈ rest := by
        rcases List.mem_cons.mp hmem with rfl | h2
        · exact absurd hid hv
        · exact h2
      rw [mergeFn_of_ne _ _ _ (fun he => hv (he ▸ rfl))]
      exact ih r u hnd.2 hu2 hid

/-! ### Bookkeeping for the second run's lookups -/

/-- A filterMap whose hits project like the underlying element list gives a
sublist of the projected list. -/
theorem filterMap_proj_sublist {α β γ : Type} (l : List α) (g : α → Option β)
    (fo : β → γ) (f : α → γ)
    (h : ∀ x ∈ l, ∀ y, g x = some y → fo y = f x) :
    ((l.filterMap g).map fo).Sublist (l.map f) := by
  induction l with
  | nil => exact List.Sublist.refl []
  | cons x xs ih =>
    have ih2 := ih (fun z hz => h z (List.mem_cons_of_mem x hz))
    cases hg : g x with
    | none =>
      rw [List.filterMap_cons, hg, List.map_cons]
      exact List.Sublist.cons (f x) ih2
    | some y =>
      rw [List.filterMap_cons, hg, List.map_cons, List.map_cons,
        h x (List.mem_cons_self x xs) y hg]
      exact List.Sublist.cons₂ (f x) ih2

/-- `matchesKey` only looks at the identity field, which patches never touch. -/
theorem matchesKey_congr (sl : List (String × Option String)) (r s : Record)
    (k : String) (h : sameView sl r s) (hd : amem sl "数据ID" = false) :
    matchesKey k r = matchesKey k s := by
  unfold matchesKey dgetV
  rw [h.2 "数据ID" hd]

/-- The diff only looks outside the single-link fields. -/
theorem needsUpdate_congr (sl : List (String × Option String)) (merged : Dict)
    (r s : Record) (h : sameView sl r s) :
    needsUpdate sl merged r.rfields = needsUpdate sl merged s.rfields := by
  unfold needsUpdate
  congr 1
  funext q
  by_cases hsl : amem sl q.1 = true
  · simp [hsl]
  · have hsl2 : amem sl q.1 = false := by simpa using hsl
    have hget : aget r.rfields q.1 = aget s.rfields q.1 := h.2 q.1 hsl2
    rw [show amem r.rfields q.1 = amem s.rfields q.1 by simp [amem, hget]]
    unfold dgetV
    rw [hget]

/-- Searching related lists with view-congruent predicates: both fail, or both
hit related elements. -/
theorem find?_forall2 {R : Record → Record → Prop} (a b : List Record)
    (h : List.Forall₂ R a b) (p q : Record → Bool)
    (hpq : ∀ x y, R x y → p x = q y) :
    (a.find? p = none ∧ b.find? q = none) ∨
      (∃ x y, a.find? p = some x ∧ b.find? q = some y ∧ R x y) := by
  induction h with
  | nil => exact Or.inl ⟨rfl, rfl⟩
  | cons hxy hrest ih =>
    rename_i x y xs ys
    by_cases hx : p x = true
    · refine Or.inr ⟨x, y, ?_, ?_, hxy⟩
      · rw [List.find?_cons_of_pos _ hx]
      · rw [List.find?_cons_of_pos _ (by rw [← hpq x y hxy]; exact hx)]
    · have hx2 : p x = false := by simpa using hx
      have hy2 : q y = false := by rw [← hpq x y hxy]; exact hx2
      rw [List.find?_cons_of_neg _ (by simp [hx2]),
        List.find?_cons_of_neg _ (by simp [hy2])] at *
      rcases ih with ⟨h1, h2⟩ | ⟨x', y', h1, h2, h3⟩
      · exact Or.inl ⟨h1, h2⟩
      · exact Or.inr ⟨x', y', h1, h2, h3⟩

/-- A created record's fields are one of the batch payloads. -/
theorem mkCreated_mem_fields (pl : List Dict) :
    ∀ (ids : List String) (r : Record), r ∈ mkCreated ids pl →
      r.rfields ∈ pl := by
  induction pl with
  | nil => intro ids r hr; cases hr
  | cons p rest ih =>
    intro ids r hr
    rcases List.mem_cons.mp hr with rfl | h2
    · exact List.mem_cons_self _ _
    · exact List.mem_cons_of_mem p (ih _ r h2)

/-- Searching the created records for a key: a miss when no pending create
carries it, a hit on the payload of the unique pending create that does. -/
theorem created_find (cs : List CreateIns) :
    ∀ (ids : List String) (k : String),
      (∀ ins ∈ cs, ∃ w, aget ins.1 "数据ID" = some w ∧ toStr w = ins.2.2 ∧
        truthy w = true) →
      (cs.map (·.2.2)).Nodup →
      ((∀ ins ∈ cs, ins.2.2 ≠ k) →
        (mkCreated ids (cs.map (·.1))).reverse.find? (matchesKey k) = none)
      ∧ (∀ ins ∈ cs, ins.2.2 = k →
          ∃ r, (mkCreated ids (cs.map (·.1))).reverse.find? (matchesKey k) =
            some r ∧ r.rfields = ins.1) := by
  induction cs with
  | nil =>
    intro ids k _ _
    exact ⟨fun _ => rfl, fun ins hins => by cases hins⟩
  | cons c rest ih =>
    intro ids k hw hnd
    simp only [List.map_cons, List.nodup_cons] at hnd
    obtain ⟨w0, hw0a, hw0b, hw0c⟩ := hw c (List.mem_cons_self c rest)
    have hrec := ih (ids ++ [concatIds ids]) k
      (fun ins hins => hw ins (List.mem_cons_of_mem c hins)) hnd.2
    have hkey0 : matchesKey k ⟨concatIds ids, c.1⟩ = (c.2.2 == k) := by
      rw [matchesKey_of_aget k ⟨concatIds ids, c.1⟩ w0 hw0a, hw0c, hw0b]
      simp
    have hshape : (mkCreated ids ((c :: rest).map (·.1))).reverse =
        (mkCreated (ids ++ [concatIds ids]) (rest.map (·.1))).reverse ++
          [⟨concatIds ids, c.1⟩] := by
      show (Record.mk (concatIds ids) c.1 ::
        mkCreated (ids ++ [concatIds ids]) (rest.map (·.1))).reverse = _
      rw [List.reverse_cons]
    constructor
    · intro hnone
      rw [hshape, find?_append_cases]
      rw [hrec.1 (fun ins hins => hnone ins (List.mem_cons_of_mem c hins))]
      rw [List.find?_singleton, hkey0]
      have : (c.2.2 == k) = false := by
        simpa using hnone c (List.mem_cons_self c rest)
      rw [this]
      rfl
    · intro ins hins hk
      rcases List.mem_cons.mp hins with rfl | h2
      · have hrestnone : ∀ x ∈ rest, x.2.2 ≠ k := by
          intro x hx he
          refine hnd.1 ?_
          rw [hk, ← he]
          exact List.mem_map_of_mem _ hx
        rw [hshape, find?_append_cases, hrec.1 hrestnone, List.find?_singleton,
          hkey0]
        have : (ins.2.2 == k) = true := by simp [hk]
        rw [this]
        exact ⟨⟨concatIds ids, ins.1⟩, rfl, rfl⟩
      · obtain ⟨r, hr1, hr2⟩ := hrec.2 ins h2 hk
        refine ⟨r, ?_, hr2⟩
        rw [hshape, find?_append_cases, hr1]

/-- Searching the merged base records for a key: the merge chain moves the
hit to the merged image of the original hit. -/
theorem base_find_after_merge (records : List Record) (us : List UpdateIns)
    (k : String) (R : Record)
    (hfind : records.reverse.find? (matchesKey k) = some R)
    (hndid : (records.map Record.recordId).Nodup)
    (hndus : (us.map (·.1)).Nodup)
    (hpnd : ∀ u ∈ us, (u.2.1.map Prod.fst).Nodup)
    (hops : ∀ u ∈ us, ∃ w, aget u.2.1 "数据ID" = some w ∧ toStr w = u.2.2.2 ∧
      truthy w = true)
    (hkeys : ∀ u ∈ us, u.2.2.2 = k → u.1 = R.recordId)
    (htarget : ∀ u ∈ us, u.1 = R.recordId → u.2.2.2 = k) :
    (records.map (mergeAll us)).reverse.find? (matchesKey k) =
      some (mergeAll us R) := by
  have hpa : matchesKey k R = true := List.find?_some hfind
  have hRmem : R ∈ records := by
    have := List.mem_of_find?_eq_some hfind
    exact List.mem_reverse.mp this
  obtain ⟨_, L1, L2, hdec, hall⟩ := find?_eq_some_decomp _ _ _ hfind
  -- the merged image of any record targeted by an instruction
  have hmerged_of_target : ∀ (x : Record) (u : UpdateIns), u ∈ us →
      u.1 = x.recordId →
      ∃ w, aget (mergeAll us x).rfields "数据ID" = some w ∧
        toStr w = u.2.2.2 ∧ truthy w = true := by
    intro x u hu hux
    rw [mergeAll_single us x u hndus hu hux]
    obtain ⟨w, hw1, hw2, hw3⟩ := hops u hu
    refine ⟨w, ?_, hw2, hw3⟩
    show aget (updateD x.rfields u.2.1) "数据ID" = some w
    rw [aget_updateD_nodup _ _ _ (hpnd u hu), hw1]
    rfl
  -- records strictly after the hit (earlier in reverse) stay non-matching
  have hL1 : ∀ x ∈ L1, matchesKey k (mergeAll us x) = false := by
    intro x hx
    have hxrec : x ∈ records := by
      refine List.mem_reverse.mp ?_
      rw [hdec]
      exact List.mem_append_left _ hx
    by_cases htg : ∃ u ∈ us, u.1 = x.recordId
    · obtain ⟨u, hu, hux⟩ := htg
      obtain ⟨w, hw1, hw2, hw3⟩ := hmerged_of_target x u hu hux
      rw [matchesKey_of_aget k _ w hw1, hw3]
      by_cases hk2 : u.2.2.2 = k
      · exfalso
        have hid : u.1 = R.recordId := hkeys u hu hk2
        have hxR : x = R :=
          List.inj_on_of_nodup_map hndid hxrec hRmem (by rw [← hux, hid])
        rw [hxR] at hx
        have := hall R hx
        rw [hpa] at this
        cases this
      · rw [hw2]
        simp [hk2]
    · push_neg at htg
      rw [mergeAll_of_ne us x (fun u hu => htg u hu)]
      exact hall x hx
  -- the hit itself still matches after its merges
  have hRmatch : matchesKey k (mergeAll us R) = true := by
    by_cases htg : ∃ u ∈ us, u.1 = R.recordId
    · obtain ⟨u, hu, hux⟩ := htg
      obtain ⟨w, hw1, hw2, hw3⟩ := hmerged_of_target R u hu hux
      rw [matchesKey_of_aget k _ w hw1, hw3, hw2, htarget u hu hux]
      simp
    · push_neg at htg
      rw [mergeAll_of_ne us R (fun u hu => htg u hu)]
      exact hpa
  rw [← List.map_reverse, hdec, List.map_append, List.map_cons,
    find?_append_cases]
  have hnone : (L1.map (mergeAll us)).find? (matchesKey k) = none := by
    rw [List.find?_eq_none]
    intro x hx
    obtain ⟨x0, hx0, hxeq⟩ := List.mem_map.mp hx
    rw [← hxeq]
    simp [hL1 x0 hx0]
  rw [hnone]
  exact List.find?_cons_of_pos _ hRmatch

/-! ### Run-level projections -/

def runRows (input : RunInput) : List (Dict × Dict) :=
  input.frozenRows.zip input.dataRows

def runSL (input : RunInput) : List (String × Option String) :=
  (classifyFields input.schema).singleLink

def runCreates (fc : Value → Option Value) (input : RunInput)
    (st : RemoteState) : List CreateIns :=
  (rowActions fc (buildCtx input st) input).filterMap createOf

def runUpdates (fc : Value → Option Value) (input : RunInput)
    (st : RemoteState) : List UpdateIns :=
  (rowActions fc (buildCtx input st) input).filterMap updateOf

def plainCreated (fc : Value → Option Value) (input : RunInput)
    (st : RemoteState) : List Record :=
  mkCreated (stateIds st) ((runCreates fc input st).map (·.1))

def plainFinal (fc : Value → Option Value) (input : RunInput)
    (st : RemoteState) : List Record :=
  (st.records ++ plainCreated fc input st).map
    (mergeAll (runUpdates fc input st))

theorem flushRun_snd (fc : Value → Option Value) (input : RunInput)
    (st : RemoteState) :
    (flushRun fc input st).2 =
      applyUpdates (applyCreates st (runCreates fc input st))
        (runUpdates fc input st) := rfl

theorem buildCtx_singleLink (input : RunInput) (st : RemoteState) :
    (buildCtx input st).singleLink = runSL input := rfl

/-- Where every pending create comes from. -/
theorem runCreates_mem (fc : Value → Option Value) (input : RunInput)
    (st : RemoteState) (ins : CreateIns)
    (hins : ins ∈ runCreates fc input st) :
    ∃ p ∈ runRows input,
      aget (buildRecordMap st.records) (generateDataId p.1) = none ∧
      ins = (rowPayload fc (buildCtx input st)
          (mergedFields p.1 p.2 (generateDataId p.1)),
        linkFieldValues (buildCtx input st).singleLink
          (buildCtx input st).linkCache
          (mergedFields p.1 p.2 (generateDataId p.1)),
        generateDataId p.1) := by
  obtain ⟨a, ha, hfa⟩ := List.mem_filterMap.mp hins
  obtain ⟨p, hp, hpa⟩ := List.mem_map.mp ha
  rw [← hpa] at hfa
  obtain ⟨hm, hins2⟩ := createOf_classifyRow fc (buildCtx input st) p.1 p.2 ins hfa
  exact ⟨p, hp, hm, hins2⟩

/-- Where every pending update comes from. -/
theorem runUpdates_mem (fc : Value → Option Value) (input : RunInput)
    (st : RemoteState) (u : UpdateIns)
    (hu : u ∈ runUpdates fc input st) :
    ∃ p ∈ runRows input, ∃ R,
      aget (buildRecordMap st.records) (generateDataId p.1) = some R ∧
      needsUpdate (buildCtx input st).singleLink
        (mergedFields p.1 p.2 (generateDataId p.1)) R.rfields = true ∧
      u = (R.recordId,
        rowPayload fc (buildCtx input st)
          (mergedFields p.1 p.2 (generateDataId p.1)),
        linkFieldValues (buildCtx input st).singleLink
          (buildCtx input st).linkCache
          (mergedFields p.1 p.2 (generateDataId p.1)),
        generateDataId p.1) := by
  obtain ⟨a, ha, hfa⟩ := List.mem_filterMap.mp hu
  obtain ⟨p, hp, hpa⟩ := List.mem_map.mp ha
  rw [← hpa] at hfa
  obtain ⟨R, hm, hnu, hu2⟩ := updateOf_classifyRow fc (buildCtx input st) p.1 p.2 u hfa
  exact ⟨p, hp, R, hm, hnu, hu2⟩

/-- The pending creates' identity keys form a sublist of the rows' keys. -/
theorem runCreates_keys_sublist (fc : Value → Option Value) (input : RunInput)
    (st : RemoteState) :
    ((runCreates fc input st).map (·.2.2)).Sublist
      ((runRows input).map (fun p => generateDataId p.1)) := by
  show (((rowActions fc (buildCtx input st) input).filterMap createOf).map
    (·.2.2)).Sublist _
  rw [show rowActions fc (buildCtx input st) input =
    (runRows input).map
      (fun p => classifyRow fc (buildCtx input st) p.1 p.2) from rfl]
  rw [List.filterMap_map]
  apply filterMap_proj_sublist
  intro p _ ins hins
  obtain ⟨_, hins2⟩ :=
    createOf_classifyRow fc (buildCtx input st) p.1 p.2 ins hins
  rw [hins2]

/-- The pending updates' identity keys form a sublist of the rows' keys. -/
theorem runUpdates_keys_sublist (fc : Value → Option Value) (input : RunInput)
    (st : RemoteState) :
    ((runUpdates fc input st).map (·.2.2.2)).Sublist
      ((runRows input).map (fun p => generateDataId p.1)) := by
  show (((rowActions fc (buildCtx input st) input).filterMap updateOf).map
    (·.2.2.2)).Sublist _
  rw [show rowActions fc (buildCtx input st) input =
    (runRows input).map
      (fun p => classifyRow fc (buildCtx input st) p.1 p.2) from rfl]
  rw [List.filterMap_map]
  apply filterMap_proj_sublist
  intro p _ u hu
  obtain ⟨R, _, _, hu2⟩ :=
    updateOf_classifyRow fc (buildCtx input st) p.1 p.2 u hu
  rw [hu2]

/-- A record found through `matchesKey` stores the key as the string form of
its identity field. -/
theorem matchesKey_key (k : String) (r : Record) (h : matchesKey k r = true) :
    toStr (dgetV r.rfields "数据ID") = k := by
  unfold matchesKey at h
  rw [Bool.and_eq_true] at h
  exact eq_of_beq h.2

/-- The record id the identity map holds at a key. -/
def mapTarget (records : List Record) (k : String) : String :=
  match aget (buildRecordMap records) k with
  | some R => R.recordId
  | none => ""

theorem mapTarget_eq (records : List Record) (k : String) (R : Record)
    (h : aget (buildRecordMap records) k = some R) :
    mapTarget records k = R.recordId := by
  unfold mapTarget
  rw [h]

/-- Every pending create's relation writes hit single-link fields only. -/
theorem runCreates_links (fc : Value → Option Value) (input : RunInput)
    (st0 : RemoteState) :
    ∀ ins ∈ runCreates fc input st0, ∀ q ∈ ins.2.1,
      amem (runSL input) q.1 = true := by
  intro ins hins q hq
  obtain ⟨p', _, _, hins2⟩ := runCreates_mem fc input st0 ins hins
  rw [hins2] at hq
  exact linkFieldValues_keys _ _ _ q hq

/-- Every pending update's relation writes hit single-link fields only. -/
theorem runUpdates_links (fc : Value → Option Value) (input : RunInput)
    (st0 : RemoteState) :
    ∀ u ∈ runUpdates fc input st0, ∀ q ∈ u.2.2.1,
      amem (runSL input) q.1 = true := by
  intro u hu q hq
  obtain ⟨p', _, R', _, _, hu2⟩ := runUpdates_mem fc input st0 u hu
  rw [hu2] at hq
  exact linkFieldValues_keys _ _ _ q hq

/-- Every pending update's primary payload has pairwise-distinct keys. -/
theorem runUpdates_payload_nodup (fc : Value → Option Value) (input : RunInput)
    (st0 : RemoteState) :
    ∀ u ∈ runUpdates fc input st0, (u.2.1.map Prod.fst).Nodup := by
  intro u hu
  obtain ⟨p', _, R', _, _, hu2⟩ := runUpdates_mem fc input st0 u hu
  rw [hu2]
  exact nodup_keys_rowPayload fc _ p'.1 p'.2 (generateDataId p'.1)

/-- Every pending create's payload carries its own identity key, truthy. -/
theorem runCreates_dataId (fc : Value → Option Value) (input : RunInput)
    (st0 : RemoteState)
    (H1 : ∀ v w, fc v = some w → toStr w = toStr v)
    (H2 : ∀ p ∈ runRows input,
      ∀ q ∈ mergedFields p.1 p.2 (generateDataId p.1),
        (classifyFields input.schema).special.contains q.1 = false)
    (H3 : amem (runSL input) "数据ID" = false) :
    ∀ ins ∈ runCreates fc input st0,
      ∃ w, aget ins.1 "数据ID" = some w ∧ toStr w = ins.2.2 ∧
        truthy w = true := by
  intro ins hins
  obtain ⟨p', hp', _, hins2⟩ := runCreates_mem fc input st0 ins hins
  have hsp : (buildCtx input st0).special.contains "数据ID" = false :=
    H2 p' hp' ("数据ID", .vstr (generateDataId p'.1))
      (aget_some_mem _ _ _ (aget_merged_dataId p'.1 p'.2 (generateDataId p'.1)))
  have hsl : amem (buildCtx input st0).singleLink "数据ID" = false := H3
  obtain ⟨w, hw1, hw2, hw3⟩ := rowPayload_dataId fc H1 (buildCtx input st0)
    p'.1 p'.2 hsp hsl
  rw [hins2]
  exact ⟨w, hw1, hw2, hw3⟩

/-- Every pending update's payload carries its own identity key, truthy. -/
theorem runUpdates_dataId (fc : Value → Option Value) (input : RunInput)
    (st0 : RemoteState)
    (H1 : ∀ v w, fc v = some w → toStr w = toStr v)
    (H2 : ∀ p ∈ runRows input,
      ∀ q ∈ mergedFields p.1 p.2 (generateDataId p.1),
        (classifyFields input.schema).special.contains q.1 = false)
    (H3 : amem (runSL input) "数据ID" = false) :
    ∀ u ∈ runUpdates fc input st0,
      ∃ w, aget u.2.1 "数据ID" = some w ∧ toStr w = u.2.2.2 ∧
        truthy w = true := by
  intro u hu
  obtain ⟨p', hp', R', _, _, hu2⟩ := runUpdates_mem fc input st0 u hu
  have hsp : (buildCtx input st0).special.contains "数据ID" = false :=
    H2 p' hp' ("数据ID", .vstr (generateDataId p'.1))
      (aget_some_mem _ _ _ (aget_merged_dataId p'.1 p'.2 (generateDataId p'.1)))
  have hsl : amem (buildCtx input st0).singleLink "数据ID" = false := H3
  obtain ⟨w, hw1, hw2, hw3⟩ := rowPayload_dataId fc H1 (buildCtx input st0)
    p'.1 p'.2 hsp hsl
  rw [hu2]
  exact ⟨w, hw1, hw2, hw3⟩

/-- Distinct row keys give distinct pending-create keys. -/
theorem runCreates_keys_nodup (fc : Value → Option Value) (input : RunInput)
    (st0 : RemoteState)
    (H4 : ((runRows input).map (fun p => generateDataId p.1)).Nodup) :
    ((runCreates fc input st0).map (·.2.2)).Nodup :=
  List.Nodup.sublist (runCreates_keys_sublist fc input st0) H4

/-- Distinct row keys give distinct pending-update keys. -/
theorem runUpdates_keys_nodup (fc : Value → Option Value) (input : RunInput)
    (st0 : RemoteState)
    (H4 : ((runRows input).map (fun p => generateDataId p.1)).Nodup) :
    ((runUpdates fc input st0).map (·.2.2.2)).Nodup :=
  List.Nodup.sublist (runUpdates_keys_sublist fc input st0) H4

/-- Distinct row keys and distinct remote ids give distinct update targets. -/
theorem runUpdates_targets_nodup (fc : Value → Option Value) (input : RunInput)
    (st0 : RemoteState)
    (H4 : ((runRows input).map (fun p => generateDataId p.1)).Nodup)
    (H5 : (st0.records.map Record.recordId).Nodup) :
    ((runUpdates fc input st0).map (·.1)).Nodup := by
  have hknd : ((runUpdates fc input st0).map (·.2.2.2)).Nodup :=
    runUpdates_keys_nodup fc input st0 H4
  have hmemK : ∀ k0, k0 ∈ (runUpdates fc input st0).map (·.2.2.2) →
      ∃ R, aget (buildRecordMap st0.records) k0 = some R := by
    intro k0 hk0
    obtain ⟨u, hu, huk⟩ := List.mem_map.mp hk0
    obtain ⟨p', _, R', hm', _, hu2⟩ := runUpdates_mem fc input st0 u hu
    refine ⟨R', ?_⟩
    rw [← huk, hu2]
    exact hm'
  have hmapeq : (runUpdates fc input st0).map (·.1) =
      ((runUpdates fc input st0).map (·.2.2.2)).map (mapTarget st0.records) := by
    rw [List.map_map]
    apply List.map_congr_left
    intro u hu
    obtain ⟨p', _, R', hm', _, hu2⟩ := runUpdates_mem fc input st0 u hu
    show u.1 = mapTarget st0.records u.2.2.2
    rw [hu2]
    show R'.recordId = mapTarget st0.records (generateDataId p'.1)
    rw [mapTarget_eq st0.records _ R' hm']
  rw [hmapeq, List.nodup_map_iff_inj_on hknd]
  intro k1 hk1 k2 hk2 heq
  obtain ⟨R1, hm1⟩ := hmemK k1 hk1
  obtain ⟨R2, hm2⟩ := hmemK k2 hk2
  have hf1 : st0.records.reverse.find? (matchesKey k1) = some R1 := by
    rw [← aget_buildRecordMap]
    exact hm1
  have hf2 : st0.records.reverse.find? (matchesKey k2) = some R2 := by
    rw [← aget_buildRecordMap]
    exact hm2
  have hmem1 : R1 ∈ st0.records :=
    List.mem_reverse.mp (List.mem_of_find?_eq_some hf1)
  have hmem2 : R2 ∈ st0.records :=
    List.mem_reverse.mp (List.mem_of_find?_eq_some hf2)
  have heq' : R1.recordId = R2.recordId := by
    rw [← mapTarget_eq st0.records k1 R1 hm1,
      ← mapTarget_eq st0.records k2 R2 hm2]
    exact heq
  have hR : R1 = R2 := List.inj_on_of_nodup_map H5 hmem1 hmem2 heq'
  rw [← matchesKey_key k1 R1 (List.find?_some hf1),
    ← matchesKey_key k2 R2 (List.find?_some hf2), hR]

/-- The first run's final state, seen outside the single-link fields, is the
original records merged with the pending updates followed by the plainly
created records merged likewise. -/
theorem run_viewEq (fc : Value → Option Value) (input : RunInput)
    (st0 : RemoteState) :
    viewEq (runSL input) (flushRun fc input st0).2.records
      (plainFinal fc input st0) := by
  rw [flushRun_snd]
  have h1 := viewEq_createChunks (runSL input)
    (chunksOf 500 (runCreates fc input st0))
    (fun c hc ins hins q hq =>
      runCreates_links fc input st0 ins
        (by
          have hmem : ins ∈ (chunksOf 500 (runCreates fc input st0)).flatten :=
            List.mem_flatten.mpr ⟨c, hc, hins⟩
          rwa [chunksOf_flatten] at hmem) q hq)
    st0 st0.records (viewEq_refl _ _)
  rw [chunksOf_flatten] at h1
  have h1' : viewEq (runSL input)
      (applyCreates st0 (runCreates fc input st0)).records
      (st0.records ++ plainCreated fc input st0) := h1
  have h2 := viewEq_updateChunks (runSL input)
    (chunksOf 500 (runUpdates fc input st0))
    (fun c hc u hu q hq =>
      runUpdates_links fc input st0 u
        (by
          have hmem : u ∈ (chunksOf 500 (runUpdates fc input st0)).flatten :=
            List.mem_flatten.mpr ⟨c, hc, hu⟩
          rwa [chunksOf_flatten] at hmem) q hq)
    (fun c hc u hu =>
      runUpdates_payload_nodup fc input st0 u
        (by
          have hmem : u ∈ (chunksOf 500 (runUpdates fc input st0)).flatten :=
            List.mem_flatten.mpr ⟨c, hc, hu⟩
          rwa [chunksOf_flatten] at hmem))
    (applyCreates st0 (runCreates fc input st0))
    (st0.records ++ plainCreated fc input st0) h1'
  rw [chunksOf_flatten] at h2
  exact h2

/-- No pending update targets a freshly created record, so the merge chain
passes through the created block unchanged. -/
theorem plainFinal_decomp (fc : Value → Option Value) (input : RunInput)
    (st0 : RemoteState) :
    plainFinal fc input st0 =
      st0.records.map (mergeAll (runUpdates fc input st0)) ++
        plainCreated fc input st0 := by
  show (st0.records ++ plainCreated fc input st0).map
      (mergeAll (runUpdates fc input st0)) = _
  rw [List.map_append]
  congr 1
  have hfix : ∀ r ∈ plainCreated fc input st0,
      mergeAll (runUpdates fc input st0) r = id r := by
    intro r hr
    show mergeAll (runUpdates fc input st0) r = r
    apply mergeAll_of_ne
    intro u hu he
    obtain ⟨p', _, R', hm', _, hu2⟩ := runUpdates_mem fc input st0 u hu
    have hfind' : st0.records.reverse.find?
        (matchesKey (generateDataId p'.1)) = some R' := by
      rw [← aget_buildRecordMap]
      exact hm'
    have hmem' : R' ∈ st0.records :=
      List.mem_reverse.mp (List.mem_of_find?_eq_some hfind')
    have hid : u.1 = R'.recordId := by rw [hu2]
    have hrid : r.recordId = R'.recordId := by rw [← he, hid]
    have hmemid : r.recordId ∈ stateIds st0 := by
      rw [hrid]
      exact List.mem_map_of_mem _ hmem'
    exact mkCreated_id_not_mem _ _ r hr hmemid
  calc (plainCreated fc input st0).map (mergeAll (runUpdates fc input st0))
      = (plainCreated fc input st0).map id := List.map_congr_left hfix
    _ = plainCreated fc input st0 := List.map_id _

/-- Where the second run's identity search lands on the plain view of the
state after run one, row by row: always a hit, and a hit the diff accepts. -/
theorem plain_find (fc : Value → Option Value) (input : RunInput)
    (st0 : RemoteState)
    (H1 : ∀ v w, fc v = some w → toStr w = toStr v)
    (H2 : ∀ p ∈ runRows input,
      ∀ q ∈ mergedFields p.1 p.2 (generateDataId p.1),
        (classifyFields input.schema).special.contains q.1 = false)
    (H3 : amem (runSL input) "数据ID" = false)
    (H4 : ((runRows input).map (fun p => generateDataId p.1)).Nodup)
    (H5 : (st0.records.map Record.recordId).Nodup) :
    ∀ p ∈ runRows input,
      ∃ S, (plainFinal fc input st0).reverse.find?
          (matchesKey (generateDataId p.1)) = some S ∧
        needsUpdate (runSL input)
          (mergedFields p.1 p.2 (generateDataId p.1)) S.rfields = false := by
  intro p hp
  obtain ⟨hnonepart, hfindpart⟩ := created_find (runCreates fc input st0)
    (stateIds st0) (generateDataId p.1)
    (runCreates_dataId fc input st0 H1 H2 H3)
    (runCreates_keys_nodup fc input st0 H4)
  cases hm : aget (buildRecordMap st0.records) (generateDataId p.1) with
  | none =>
    have hm2 : aget (buildCtx input st0).recordMap (generateDataId p.1) =
        none := hm
    have hins : (rowPayload fc (buildCtx input st0)
          (mergedFields p.1 p.2 (generateDataId p.1)),
        linkFieldValues (buildCtx input st0).singleLink
          (buildCtx input st0).linkCache
          (mergedFields p.1 p.2 (generateDataId p.1)),
        generateDataId p.1) ∈ runCreates fc input st0 := by
      apply List.mem_filterMap.mpr
      refine ⟨classifyRow fc (buildCtx input st0) p.1 p.2, ?_, ?_⟩
      · exact List.mem_map_of_mem _ hp
      · rw [classifyRow_eq, hm2]
        rfl
    obtain ⟨r, hr1, hr2⟩ := hfindpart _ hins rfl
    have hr1' : (plainCreated fc input st0).reverse.find?
        (matchesKey (generateDataId p.1)) = some r := hr1
    refine ⟨r, ?_, ?_⟩
    · rw [plainFinal_decomp, List.reverse_append, find?_append_cases, hr1']
    · have hr2' : r.rfields = rowPayload fc (buildCtx input st0)
          (mergedFields p.1 p.2 (generateDataId p.1)) := hr2
      rw [hr2']
      exact needsUpdate_against_payload fc H1 (buildCtx input st0) p.1 p.2
        (fun q hq => H2 p hp q hq)
  | some R =>
    have hfind0 : st0.records.reverse.find?
        (matchesKey (generateDataId p.1)) = some R := by
      rw [← aget_buildRecordMap]
      exact hm
    have hcnone : (plainCreated fc input st0).reverse.find?
        (matchesKey (generateDataId p.1)) = none := by
      apply hnonepart
      intro ins hins he
      obtain ⟨p', _, hm', hins2⟩ := runCreates_mem fc input st0 ins hins
      have hk' : ins.2.2 = generateDataId p'.1 := by rw [hins2]
      rw [hk'] at he
      rw [he] at hm'
      rw [hm'] at hm
      cases hm
    have hkeysR : ∀ u ∈ runUpdates fc input st0,
        u.2.2.2 = generateDataId p.1 → u.1 = R.recordId := by
      intro u hu hk
      obtain ⟨p', _, R', hm', _, hu2⟩ := runUpdates_mem fc input st0 u hu
      have hkey' : generateDataId p'.1 = generateDataId p.1 := by
        rw [← hk, hu2]
      have hm'' : aget (buildRecordMap st0.records) (generateDataId p.1) =
          some R' := by
        rw [← hkey']
        exact hm'
      have hRR : R' = R := Option.some.inj (hm''.symm.trans hm)
      rw [hu2, hRR]
    have htargetR : ∀ u ∈ runUpdates fc input st0,
        u.1 = R.recordId → u.2.2.2 = generateDataId p.1 := by
      intro u hu hid
      obtain ⟨p', _, R', hm', _, hu2⟩ := runUpdates_mem fc input st0 u hu
      have hid' : R'.recordId = R.recordId := by
        rw [hu2] at hid
        exact hid
      have hfind' : st0.records.reverse.find?
          (matchesKey (generateDataId p'.1)) = some R' := by
        rw [← aget_buildRecordMap]
        exact hm'
      have hmem' : R' ∈ st0.records :=
        List.mem_reverse.mp (List.mem_of_find?_eq_some hfind')
      have hmemR : R ∈ st0.records :=
        List.mem_reverse.mp (List.mem_of_find?_eq_some hfind0)
      have hRR : R' = R := List.inj_on_of_nodup_map H5 hmem' hmemR hid'
      have h1 : toStr (dgetV R'.rfields "数据ID") = generateDataId p'.1 :=
        matchesKey_key _ _ (List.find?_some hfind')
      have h2 : toStr (dgetV R.rfields "数据ID") = generateDataId p.1 :=
        matchesKey_key _ _ (List.find?_some hfind0)
      rw [hu2]
      show generateDataId p'.1 = generateDataId p.1
      rw [← h1, ← h2, hRR]
    have hbase := base_find_after_merge st0.records (runUpdates fc input st0)
      (generateDataId p.1) R hfind0 H5
      (runUpdates_targets_nodup fc input st0 H4 H5)
      (runUpdates_payload_nodup fc input st0)
      (runUpdates_dataId fc input st0 H1 H2 H3)
      hkeysR htargetR
    refine ⟨mergeAll (runUpdates fc input st0) R, ?_, ?_⟩
    · rw [plainFinal_decomp, List.reverse_append, find?_append_cases, hcnone]
      exact hbase
    · by_cases hnu : needsUpdate (buildCtx input st0).singleLink
          (mergedFields p.1 p.2 (generateDataId p.1)) R.rfields = true
      · have hm2 : aget (buildCtx input st0).recordMap (generateDataId p.1) =
            some R := hm
        have humem : (R.recordId,
            rowPayload fc (buildCtx input st0)
              (mergedFields p.1 p.2 (generateDataId p.1)),
            linkFieldValues (buildCtx input st0).singleLink
              (buildCtx input st0).linkCache
              (mergedFields p.1 p.2 (generateDataId p.1)),
            generateDataId p.1) ∈ runUpdates fc input st0 := by
          apply List.mem_filterMap.mpr
          refine ⟨classifyRow fc (buildCtx input st0) p.1 p.2, ?_, ?_⟩
          · exact List.mem_map_of_mem _ hp
          · rw [classifyRow_eq, hm2]
            simp only []
            rw [if_pos hnu]
            rfl
        have hsingle := mergeAll_single (runUpdates fc input st0) R _
          (runUpdates_targets_nodup fc input st0 H4 H5) humem rfl
        rw [hsingle]
        exact needsUpdate_against_merged_payload fc H1 (buildCtx input st0)
          p.1 p.2 R.rfields (fun q hq => H2 p hp q hq)
      · have hnu2 : needsUpdate (buildCtx input st0).singleLink
            (mergedFields p.1 p.2 (generateDataId p.1)) R.rfields = false := by
          simpa using hnu
        have hfix : mergeAll (runUpdates fc input st0) R = R := by
          apply mergeAll_of_ne
          intro u hu he
          have hk := htargetR u hu he
          obtain ⟨p', hp', R', hm', hnu', hu2⟩ :=
            runUpdates_mem fc input st0 u hu
          have hkeq : generateDataId p'.1 = generateDataId p.1 := by
            rw [hu2] at hk
            exact hk
          have hpp : p' = p := List.inj_on_of_nodup_map H4 hp' hp hkeq
          rw [hpp] at hm' hnu'
          rw [hm] at hm'
          have hRR : R' = R := (Option.some.inj hm').symm
          rw [hRR] at hnu'
          rw [hnu'] at hnu2
          cases hnu2
        rw [hfix]
        exact hnu2

/-- Row by row, the second run's classifier sees the same key at an
equivalent record and reports no difference. -/
theorem second_run_unchanged (fc : Value → Option Value) (input : RunInput)
    (st0 : RemoteState)
    (H1 : ∀ v w, fc v = some w → toStr w = toStr v)
    (H2 : ∀ p ∈ runRows input,
      ∀ q ∈ mergedFields p.1 p.2 (generateDataId p.1),
        (classifyFields input.schema).special.contains q.1 = false)
    (H3 : amem (runSL input) "数据ID" = false)
    (H4 : ((runRows input).map (fun p => generateDataId p.1)).Nodup)
    (H5 : (st0.records.map Record.recordId).Nodup) :
    ∀ p ∈ runRows input,
      classifyRow fc (buildCtx input (flushRun fc input st0).2) p.1 p.2 =
        .unchanged := by
  intro p hp
  obtain ⟨S, hS1, hS2⟩ := plain_find fc input st0 H1 H2 H3 H4 H5 p hp
  have hve : List.Forall₂ (sameView (runSL input))
      (flushRun fc input st0).2.records (plainFinal fc input st0) :=
    run_viewEq fc input st0
  have hrev : List.Forall₂ (sameView (runSL input))
      (flushRun fc input st0).2.records.reverse
      (plainFinal fc input st0).reverse := List.rel_reverse hve
  rcases find?_forall2 _ _ hrev (matchesKey (generateDataId p.1))
      (matchesKey (generateDataId p.1))
      (fun x y hxy =>
        matchesKey_congr (runSL input) x y (generateDataId p.1) hxy H3) with
    ⟨h1, h2⟩ | ⟨x, y, hx, hy, hxy⟩
  · rw [hS1] at h2
    cases h2
  · have hyS : y = S := by
      rw [hy] at hS1
      exact Option.some.inj hS1
    rw [classifyRow_eq]
    have hmm : aget (buildCtx input (flushRun fc input st0).2).recordMap
        (generateDataId p.1) = some x := by
      show aget (buildRecordMap (flushRun fc input st0).2.records)
        (generateDataId p.1) = some x
      rw [aget_buildRecordMap]
      exact hx
    rw [hmm]
    simp only []
    have hnux : needsUpdate
        (buildCtx input (flushRun fc input st0).2).singleLink
        (mergedFields p.1 p.2 (generateDataId p.1)) x.rfields = false := by
      show needsUpdate (runSL input)
        (mergedFields p.1 p.2 (generateDataId p.1)) x.rfields = false
      rw [needsUpdate_congr (runSL input)
        (mergedFields p.1 p.2 (generateDataId p.1)) x y hxy, hyS]
      exact hS2
    rw [if_neg (by rw [hnux]; simp)]

/-- C2 (amended): running `FlushCommand.run` a second time against the same
source rows and the remote state the first run produced yields `created = 0`
and `updated = 0`, provided the numeric coercion preserves string forms, no
merged source column is a relation-multi (special) field, the identity field
`数据ID` is not a single-link field, the rows' identity keys are pairwise
distinct, and the initial remote record ids are pairwise distinct. -/
theorem c2_amended (fc : Value → Option Value) (input : RunInput)
    (st0 : RemoteState)
    (H1 : ∀ v w, fc v = some w → toStr w = toStr v)
    (H2 : ∀ p ∈ runRows input,
      ∀ q ∈ mergedFields p.1 p.2 (generateDataId p.1),
        (classifyFields input.schema).special.contains q.1 = false)
    (H3 : amem (runSL input) "数据ID" = false)
    (H4 : ((runRows input).map (fun p => generateDataId p.1)).Nodup)
    (H5 : (st0.records.map Record.recordId).Nodup) :
    (flushRun fc input (flushRun fc input st0).2).1.created = 0 ∧
      (flushRun fc input (flushRun fc input st0).2).1.updated = 0 := by
  have hall := second_run_unchanged fc input st0 H1 H2 H3 H4 H5
  have hacts : ∀ a ∈ rowActions fc (buildCtx input (flushRun fc input st0).2)
      input, a = RowAction.unchanged := by
    intro a ha
    have ha' : a ∈ (runRows input).map
        (fun p => classifyRow fc (buildCtx input (flushRun fc input st0).2)
          p.1 p.2) := ha
    obtain ⟨p, hp, hpa⟩ := List.mem_map.mp ha'
    rw [← hpa]
    exact hall p hp
  constructor
  · show ((rowActions fc (buildCtx input (flushRun fc input st0).2)
        input).filterMap createOf).length = 0
    have hnil : (rowActions fc (buildCtx input (flushRun fc input st0).2)
        input).filterMap createOf = [] := by
      rw [List.filterMap_eq_nil_iff]
      intro a ha
      rw [hacts a ha]
      rfl
    rw [hnil]
    rfl
  · show ((rowActions fc (buildCtx input (flushRun fc input st0).2)
        input).filterMap updateOf).length = 0
    have hnil : (rowActions fc (buildCtx input (flushRun fc input st0).2)
        input).filterMap updateOf = [] := by
      rw [List.filterMap_eq_nil_iff]
      intro a ha
      rw [hacts a ha]
      rfl
    rw [hnil]
    rfl

/-- A one-row input with an empty schema: the first run creates the record,
the second run leaves everything alone. -/
def c2wInput : RunInput :=
  ⟨[[("企业ID", .vstr "E1")]], [[("M", .vstr "a")]], [], []⟩

theorem c2_amended_witness :
    (flushRun (fun _ => none) c2wInput
        ((flushRun (fun _ => none) c2wInput ⟨[]⟩).2)).1.created = 0 ∧
      (flushRun (fun _ => none) c2wInput
        ((flushRun (fun _ => none) c2wInput ⟨[]⟩).2)).1.updated = 0 :=
  c2_amended (fun _ => none) c2wInput ⟨[]⟩
    (by intro v w h; cases h)
    (by decide)
    rfl
    (by decide)
    List.nodup_nil

end Tap
